import Mathlib

/-!
Verification of the changelog-fragment tooling: the fragment creator and
aggregator (create-changelog-fragment.js / aggregate-changelog.js) and the
release shell script.  Strings are modelled as lists of characters; the
JavaScript regular expressions used by the scripts are embedded as explicit
backtracking matchers over those lists.  JavaScript objects with string keys
are modelled as insertion-ordered association lists (prototype-chain effects
of pathological keys such as "constructor" are out of scope of the model).
-/

namespace Changelog

/-- Character class of the JavaScript regex class backslash-s (and of
String.prototype.trim): ASCII whitespace plus the Unicode space characters. -/
def jsWS (c : Char) : Bool :=
  c = ' ' || c = '\t' || c = '\n' || c = '\r' || c = '\x0b' || c = '\x0c' ||
  c = ' ' || c.toNat = 0x1680 || (0x2000 ≤ c.toNat && c.toNat ≤ 0x200A) ||
  c.toNat = 0x2028 || c.toNat = 0x2029 || c.toNat = 0x202F ||
  c.toNat = 0x205F || c.toNat = 0x3000 || c.toNat = 0xFEFF

/-- JavaScript String.prototype.trim: strip whitespace from both ends. -/
def jsTrim (cs : List Char) : List Char :=
  ((cs.dropWhile jsWS).reverse.dropWhile jsWS).reverse

/-- All ways to match the regex piece backslash-s star followed by a newline
at the front of the input, as the list of remainders after the matched
newline, in greedy order (longest whitespace run first, the order a
backtracking engine explores). -/
def wsNlSplitsAux : List Char → List (List Char) → List (List Char)
  | [], acc => acc
  | c :: cs, acc =>
      if c = '\n' then wsNlSplitsAux cs (cs :: acc)
      else if jsWS c then wsNlSplitsAux cs acc
      else acc

/-- Remainders after matching whitespace-run-then-newline, greedy order. -/
def wsNlSplits (cs : List Char) : List (List Char) :=
  wsNlSplitsAux cs []

/-- Attempt to match the closing delimiter tail "---" followed by
whitespace-then-newline at the front of the input; returns the body
remainder (greedy whitespace choice) on success. -/
def closeAt : List Char → Option (List Char)
  | '-' :: '-' :: '-' :: r => (wsNlSplits r).head?
  | _ => none

/-- Lazy search for the closing delimiter of the frontmatter regex
(the piece: newline, "---", whitespace, newline).  The accumulator holds the
frontmatter characters scanned so far, in reverse.  Mirrors the lazy capture
group of the regex in create-changelog-fragment.js (parseFrontmatter): the
first closing position wins. -/
def findClose (acc : List Char) : List Char → Option (List Char × List Char)
  | [] => none
  | c :: cs =>
      match (if c = '\n' then closeAt cs else none) with
      | some b => some (acc.reverse, b)
      | none => findClose (c :: acc) cs

/-- Try each candidate remainder of the opening delimiter in greedy order;
the first one that admits a closing delimiter wins. -/
def tryOpens : List (List Char) → Option (List Char × List Char)
  | [] => none
  | r :: rs =>
      match findClose [] r with
      | some fb => some fb
      | none => tryOpens rs

/-- The frontmatter regex of parseFrontmatter: start anchor, "---",
whitespace, newline, lazy frontmatter capture, newline, "---", whitespace,
newline, body capture to the end.  Returns the (frontmatter, body) captures
of the match the JavaScript engine produces, or none when the regex does not
match (the MalformedFragment condition). -/
def matchFrontmatter : List Char → Option (List Char × List Char)
  | '-' :: '-' :: '-' :: rest => tryOpens (wsNlSplits rest)
  | _ => none

/-- Split a character list at a separator character
(String.prototype.split with a one-character separator). -/
def splitOnChar (sep : Char) : List Char → List (List Char)
  | [] => [[]]
  | c :: cs =>
      if c = sep then [] :: splitOnChar sep cs
      else
        match splitOnChar sep cs with
        | [] => [[c]]
        | l :: ls => (c :: l) :: ls

/-- Split a character list into lines at newline characters. -/
def splitLines (cs : List Char) : List (List Char) :=
  splitOnChar '\n' cs

/-- The JavaScript regex word-character class (ASCII letters, digits,
underscore). -/
def isWordChar (c : Char) : Bool :=
  c.isAlpha || c.isDigit || c = '_'

/-- Quote character: double or single quote. -/
def isQuote (c : Char) : Bool :=
  c = '"' || c.toNat = 39

/-- One application of value.replace over the leading-or-trailing-quote
regex with the global flag: strip one leading and one trailing quote. -/
def stripQuotes (v : List Char) : List Char :=
  let v1 := match v with
            | c :: rest => if isQuote c then rest else v
            | [] => []
  match v1.reverse with
  | c :: rest => if isQuote c then rest.reverse else v1
  | [] => v1

/-- JavaScript LineTerminator characters, the characters the regex dot
does not match: line feed, carriage return, line separator, paragraph
separator. -/
def isLineTerm (c : Char) : Bool :=
  c = '\n' || c = '\r' || c.toNat = 0x2028 || c.toNat = 0x2029

/-- The captured value of the metadata-line regex: after the colon, the
greedy whitespace run is skipped and the (nonempty) remainder is captured;
when everything after the colon is whitespace, backtracking leaves exactly
the last character as the capture.  The dot of the capture does not match
a LineTerminator, so a candidate capture containing one fails, and no
shorter whitespace run can remove an offender from the dot-matched span:
the line does not match at all. -/
def lineValue (t : List Char) : Option (List Char) :=
  if t = [] then none
  else
    let v := t.dropWhile jsWS
    if v = [] then
      if (t.drop (t.length - 1)).all (fun c => !isLineTerm c) then
        some (t.drop (t.length - 1))
      else none
    else if v.all (fun c => !isLineTerm c) then some v
    else none

/-- Match one frontmatter line against the metadata-line regex
(word-characters key, colon, whitespace, value); the stored value is the
capture with quotes stripped and then trimmed, as in parseFrontmatter. -/
def keyValLine (line : List Char) : Option (List Char × List Char) :=
  let key := line.takeWhile isWordChar
  let rest := line.dropWhile isWordChar
  match rest with
  | ':' :: t =>
      if key = [] then none
      else (lineValue t).map (fun v => (key, jsTrim (stripQuotes v)))
  | _ => none

/-- Last binding wins, as with repeated assignments to the metadata object. -/
def metaLookup (pairs : List (List Char × List Char)) (k : List Char) :
    Option (List Char) :=
  ((pairs.filter (fun p => p.1 = k)).getLast?).map (fun p => p.2)

/-- JavaScript parseInt with radix 10: skip leading whitespace, optional
sign, then a maximal run of decimal digits; none models NaN. -/
def parseIntJS (s : List Char) : Option Int :=
  let t := s.dropWhile jsWS
  let signNeg : Bool := match t with
    | c :: _ => c = '-'
    | [] => false
  let t2 : List Char := match t with
    | c :: r => if c = '-' || c = '+' then r else c :: r
    | [] => []
  let digits := t2.takeWhile Char.isDigit
  if digits = [] then none
  else
    let n : Nat := digits.foldl (fun a c => a * 10 + (c.toNat - 48)) 0
    some (if signNeg then -(n : Int) else (n : Int))

/-- Decimal digit character for a value below ten. -/
def digitChar (n : Nat) : Char :=
  Char.ofNat (48 + n)

/-- Fuel-structured decimal rendering helper; the fuel only needs to bound
the value, so natStr passes the value itself. -/
def natStrAux : Nat → Nat → List Char
  | 0, n => [digitChar n]
  | f + 1, n =>
      if n < 10 then [digitChar n]
      else natStrAux f (n / 10) ++ [digitChar (n % 10)]

/-- Decimal rendering of a natural number (JavaScript number-to-string for
the nonnegative integers that appear in fragments). -/
def natStr (n : Nat) : List Char :=
  natStrAux n n

/-- Result of parseFrontmatter: the object built from the metadata map and
the trimmed body.  Fields type and title are none when the corresponding
key is absent (JavaScript undefined); issue is none when parseInt gave NaN.
The parser produces no pr field. -/
structure RawFragment where
  type : Option (List Char)
  issue : Option Int
  title : Option (List Char)
  body : List Char
  deriving Repr, DecidableEq

/-- parseFrontmatter from aggregate-changelog.js: match the frontmatter
regex (throwing, modelled as none, when it fails), collect key-value lines
of the frontmatter into the metadata map, and build the result object.  No
validation of required keys, of the issue value, or of body emptiness is
performed. -/
def parseFrontmatter (content : List Char) : Option RawFragment :=
  match matchFrontmatter content with
  | none => none
  | some (fm, body) =>
      let pairs := (splitLines fm).filterMap keyValLine
      some { type := metaLookup pairs ("type".toList)
             issue := (metaLookup pairs ("issue".toList)).bind parseIntJS
             title := metaLookup pairs ("title".toList)
             body := jsTrim body }

/-- Join lines with newline separators (Array.prototype.join). -/
def joinNl : List (List Char) → List Char
  | [] => []
  | [l] => l
  | l :: ls => l ++ '\n' :: joinNl ls

/-- generateFragmentContent from create-changelog-fragment.js: the fragment
file text for a (type, issue, pr, title, description-lines) tuple. -/
def generateFragmentContent (type : List Char) (issue : Nat) (pr : Nat)
    (title : List Char) (descriptionLines : List (List Char)) : List Char :=
  ("---\ntype: ".toList) ++ type ++
  ("\nissue: ".toList) ++ natStr issue ++
  ("\npr: ".toList) ++ natStr pr ++
  ("\ntitle: \"".toList) ++ title ++
  ("\"\n---\n\n".toList) ++
  joinNl (descriptionLines.map (fun l => ("- ".toList) ++ l)) ++
  ("\n".toList)

/-- A parsed fragment as it flows through the aggregator: the parser output
plus the backing filename attached by readFragments. -/
structure Fragment where
  type : Option (List Char)
  issue : Option Int
  title : Option (List Char)
  body : List Char
  filename : List Char
  deriving Repr, DecidableEq

/-- Attach a filename to a parser result, as readFragments does. -/
def RawFragment.withName (fr : RawFragment) (name : List Char) : Fragment :=
  { type := fr.type, issue := fr.issue, title := fr.title, body := fr.body
    filename := name }

/-- File filter of readFragments: keep markdown files that are not reserved
(leading underscore or the README placeholder). -/
def isCandidate (name : List Char) : Bool :=
  (".md".toList).isSuffixOf name &&
  !(match name with | '_' :: _ => true | _ => false) &&
  name ≠ ("README.md".toList)

/-- One iteration of the readFragments loop: skip non-candidate files,
append a parsed fragment on success, record a warning naming the file on a
parse failure. -/
def readStep (st : List Fragment × List (List Char))
    (file : List Char × List Char) : List Fragment × List (List Char) :=
  if isCandidate file.1 then
    match parseFrontmatter file.2 with
    | some fr => (st.1 ++ [fr.withName file.1], st.2)
    | none => (st.1, st.2 ++ [file.1])
  else st

/-- readFragments from aggregate-changelog.js over a modelled directory
(none when the fragment directory does not exist; otherwise the enumerated
(filename, content) pairs).  Returns the successfully parsed fragments in
enumeration order together with the filenames of the per-file parse
failures that were reported as warnings. -/
def readFragments (dir : Option (List (List Char × List Char))) :
    List Fragment × List (List Char) :=
  match dir with
  | none => ([], [])
  | some files => files.foldl readStep ([], [])

/-- The grouping key of groupFragmentsByType: fragment.type, with the falsy
values (undefined and the empty string) defaulting to changed. -/
def fragType (f : Fragment) : List Char :=
  match f.type with
  | none => "changed".toList
  | some t => if t = [] then "changed".toList else t

/-- TYPE_ORDER from aggregate-changelog.js. -/
def TYPE_ORDER (t : List Char) : Option Int :=
  if t = ("added".toList) then some 1
  else if t = ("changed".toList) then some 2
  else if t = ("deprecated".toList) then some 3
  else if t = ("removed".toList) then some 4
  else if t = ("fixed".toList) then some 5
  else if t = ("security".toList) then some 6
  else none

/-- The sort key TYPE_ORDER[t] or-else 999 used by generateChangelogSection
(every table value is truthy, absence gives 999). -/
def typeOrderVal (t : List Char) : Int :=
  (TYPE_ORDER t).getD 999

/-- TYPE_HEADERS from aggregate-changelog.js. -/
def TYPE_HEADERS (t : List Char) : Option (List Char) :=
  if t = ("added".toList) then some ("Added".toList)
  else if t = ("changed".toList) then some ("Changed".toList)
  else if t = ("deprecated".toList) then some ("Deprecated".toList)
  else if t = ("removed".toList) then some ("Removed".toList)
  else if t = ("fixed".toList) then some ("Fixed".toList)
  else if t = ("security".toList) then some ("Security".toList)
  else none

/-- The fallback header: first character upper-cased plus the rest. -/
def titleCase : List Char → List Char
  | [] => []
  | c :: rest => c.toUpper :: rest

/-- Insert x after every element it is not strictly before; with a strict
comparator this is the insertion step of a stable sort. -/
def stableInsert (lt : α → α → Bool) (x : α) : List α → List α
  | [] => [x]
  | y :: ys => if lt x y then x :: y :: ys else y :: stableInsert lt x ys

/-- Stable sort by a strict comparator, modelling the (specification-stable)
Array.prototype.sort: elements the comparator does not strictly order keep
their original relative order. -/
def stableSort (lt : α → α → Bool) (l : List α) : List α :=
  l.foldl (fun acc x => stableInsert lt x acc) []

/-- Strictly-before comparator derived from the numeric comparator
(a, b) => a.issue - b.issue: true exactly when the difference is a negative
number (false whenever an operand is NaN). -/
def issueLt (a b : Fragment) : Bool :=
  match a.issue, b.issue with
  | some x, some y => decide (x < y)
  | _, _ => false

/-- Append a fragment to its type's group, preserving object-key insertion
order: an existing key keeps its position, a new key is appended. -/
def pushGroup (gs : List (List Char × List Fragment)) (t : List Char)
    (f : Fragment) : List (List Char × List Fragment) :=
  match gs with
  | [] => [(t, [f])]
  | (k, fs) :: rest =>
      if k = t then (k, fs ++ [f]) :: rest else (k, fs) :: pushGroup rest t f

/-- groupFragmentsByType from aggregate-changelog.js: group by (defaulted)
type in insertion order, then sort each group by issue number. -/
def groupFragmentsByType (frs : List Fragment) :
    List (List Char × List Fragment) :=
  ((frs.foldl (fun gs f => pushGroup gs (fragType f) f) []).map
    (fun g => (g.1, stableSort issueLt g.2)))

/-- Numeric value of a list of decimal digit characters. -/
def digitsVal (s : List Char) : Nat :=
  s.foldl (fun a c => a * 10 + (c.toNat - 48)) 0

/-- Whether a string key is a JavaScript array-index key (a canonical
decimal numeral below 2^32 - 1): such keys enumerate first, in ascending
numeric order, in Object.keys. -/
def isArrayIndexKey (s : List Char) : Bool :=
  s ≠ [] && s.all Char.isDigit &&
  (s = ['0'] || (match s with | c :: _ => c ≠ '0' | [] => true)) &&
  decide (digitsVal s < 4294967295)

/-- Object.keys enumeration order over the modelled insertion-ordered
object: array-index keys first in ascending numeric order, then the
remaining string keys in insertion order. -/
def objectKeys (gs : List (List Char × List Fragment)) : List (List Char) :=
  let ks := gs.map (fun g => g.1)
  stableSort (fun a b => decide (digitsVal a < digitsVal b))
      (ks.filter isArrayIndexKey) ++
    ks.filter (fun k => !isArrayIndexKey k)

/-- Group lookup groups[type] (keys are unique by construction). -/
def lookupGroup (gs : List (List Char × List Fragment)) (t : List Char) :
    List Fragment :=
  match gs.find? (fun g => g.1 = t) with
  | some g => g.2
  | none => []

/-- Template-literal stringification of a possibly-undefined string. -/
def jsShowStr (o : Option (List Char)) : List Char :=
  match o with
  | none => "undefined".toList
  | some s => s

/-- Template-literal stringification of a number (none models NaN). -/
def jsShowNum (o : Option Int) : List Char :=
  match o with
  | none => "NaN".toList
  | some i => if i < 0 then '-' :: natStr i.natAbs else natStr i.toNat

/-- The lines pushed for one fragment by generateChangelogSection: the
bolded title with issue reference, the nonblank body lines indented two
spaces, and an empty separator line. -/
def renderEntry (f : Fragment) : List (List Char) :=
  (("- **".toList) ++ jsShowStr f.title ++ ("** (#".toList) ++
      jsShowNum f.issue ++ (")".toList)) ::
  (((splitLines f.body).filter (fun l => jsTrim l ≠ [])).map
      (fun l => ("  ".toList) ++ l)) ++
  [[]]

/-- The strictly-before comparator of the group sort
(a, b) => TYPE_ORDER[a] - TYPE_ORDER[b] with the 999 fallback. -/
def typeLt (a b : List Char) : Bool :=
  decide (typeOrderVal a < typeOrderVal b)

/-- generateChangelogSection from aggregate-changelog.js: sort the group
keys by the type-order table, render each group as a header line (which
itself contains a trailing newline, giving a blank line after the header)
followed by its entries, and join all pushed lines with newlines. -/
def generateChangelogSection (gs : List (List Char × List Fragment)) :
    List Char :=
  joinNl ((stableSort typeLt (objectKeys gs)).flatMap (fun t =>
    (("### ".toList) ++
        (match TYPE_HEADERS t with
         | some h => h
         | none => titleCase t) ++ ("\n".toList)) ::
      (lookupGroup gs t).flatMap renderEntry))

/-- Find the first match of the pending-marker regex (the literal header
text followed by whitespace and a newline); returns the document split into
the prefix up to and including the match and the suffix after it.  An
occurrence of the literal with no completing whitespace-newline is skipped,
as regex backtracking does. -/
def findUnreleasedAux (acc : List Char) : List Char → Option (List Char × List Char)
  | [] => none
  | c :: cs =>
      if ("## [Unreleased]".toList).isPrefixOf (c :: cs) then
        match wsNlSplits ((c :: cs).drop 15) with
        | rest :: _ =>
            some (acc.reverse ++ (c :: cs).take ((c :: cs).length - rest.length),
                  rest)
        | [] => findUnreleasedAux (c :: acc) cs
      else findUnreleasedAux (c :: acc) cs

/-- First match of the pending-marker header pattern in the document. -/
def findUnreleased (cs : List Char) : Option (List Char × List Char) :=
  findUnreleasedAux [] cs

/-- Split at the first occurrence of a pattern as a substring, returning the
part before the match and the part from the match on. -/
def splitAtSubAux (pat : List Char) (acc : List Char) :
    List Char → Option (List Char × List Char)
  | [] => if pat = [] then some (acc.reverse, []) else none
  | c :: cs =>
      if pat.isPrefixOf (c :: cs) then some (acc.reverse, c :: cs)
      else splitAtSubAux pat (c :: acc) cs

/-- First-occurrence substring split. -/
def splitAtSub (pat cs : List Char) : Option (List Char × List Char) :=
  splitAtSubAux pat [] cs

/-- The pre-existing pending-section content test of updateChangelog: the
text after the matched header up to (exclusive) the first occurrence of a
newline followed by a version header, trimmed. -/
def unreleasedContentOf (suf : List Char) : List Char :=
  match splitAtSub ("\n## [".toList) suf with
  | some (before, _) => jsTrim before
  | none => jsTrim suf

/-- updateChangelog from aggregate-changelog.js: locate the pending-marker
header (none when absent, the fatal MissingPendingSection condition), test
whether the section up to the next version header already has content, and
splice one newline, the new section, and one newline in after the matched
header.  Returns the resulting document (unchanged in dry-run mode) paired
with whether the already-has-content warning was printed. -/
def updateChangelog (changelog newSection : List Char) (dryRun : Bool) :
    Option (List Char × Bool) :=
  match findUnreleased changelog with
  | none => none
  | some (pre, suf) =>
      let warned := unreleasedContentOf suf ≠ [] && !dryRun
      some ((if dryRun then changelog
             else pre ++ '\n' :: (newSection ++ '\n' :: suf)), warned)

/-- CHANGE_TYPES from create-changelog-fragment.js, in menu display order. -/
def CHANGE_TYPES : List (List Char) :=
  [("added".toList), ("fixed".toList), ("changed".toList),
   ("deprecated".toList), ("removed".toList), ("security".toList)]

/-- validateChangeType from create-changelog-fragment.js: lower-case and
trim the input and require membership in the taxonomy. -/
def validateChangeType (input : List Char) : Except (List Char) (List Char) :=
  let t := jsTrim (input.map Char.toLower)
  if t ∈ CHANGE_TYPES then .ok t
  else .error ("Invalid change type".toList)

/-- The interactive type-selection step: a numeric input within the menu
range selects the corresponding CHANGE_TYPES entry (1-based), anything else
goes through validateChangeType. -/
def selectChangeType (input : List Char) : Except (List Char) (List Char) :=
  match parseIntJS input with
  | some i =>
      if 1 ≤ i && i ≤ (CHANGE_TYPES.length : Int) then
        .ok (CHANGE_TYPES.getD (i - 1).toNat [])
      else validateChangeType input
  | none => validateChangeType input

/-- A well-formed semantic version string: exactly three dot-separated
nonempty runs of decimal digits, read as (major, minor, patch).  The shell
script splits on dots with IFS and applies shell arithmetic; the model is
restricted to well-formed versions, where that arithmetic is ordinary
natural-number arithmetic. -/
def parseSemVer (s : List Char) : Option (Nat × Nat × Nat) :=
  match splitOnChar '.' s with
  | [a, b, c] =>
      if a ≠ [] && a.all Char.isDigit && b ≠ [] && b.all Char.isDigit &&
         c ≠ [] && c.all Char.isDigit then
        some (digitsVal a, digitsVal b, digitsVal c)
      else none
  | _ => none

/-- Render a semantic version triple as a string. -/
def renderSemVer (v : Nat × Nat × Nat) : List Char :=
  natStr v.1 ++ '.' :: natStr v.2.1 ++ '.' :: natStr v.2.2

/-- Strict semantic-version ordering on (major, minor, patch). -/
def semverLt (a b : Nat × Nat × Nat) : Bool :=
  decide (a.1 < b.1) ||
  (decide (a.1 = b.1) &&
    (decide (a.2.1 < b.2.1) ||
     (decide (a.2.1 = b.2.1) && decide (a.2.2 < b.2.2))))

/-- Failure modes of the new-version computation in the release script's
non-interactive path. -/
inductive VersionError where
  | missingReleaseType
  | invalidReleaseType
  | malformedCurrent
  deriving Repr, DecidableEq

/-- The new-version computation of the release script (non-interactive
path, SKIP_PROMPTS true): a CUSTOM_VERSION is used verbatim with no
validation; otherwise RELEASE_TYPE is required and must be major, minor or
patch, and the bump is applied to the current version. -/
def computeNewVersion (currentVersion : List Char)
    (customVersion : Option (List Char)) (releaseType : Option (List Char)) :
    Except VersionError (List Char) :=
  match customVersion with
  | some v => .ok v
  | none =>
      match releaseType with
      | none => .error .missingReleaseType
      | some t =>
          match parseSemVer currentVersion with
          | none =>
              if t = ("major".toList) || t = ("minor".toList) ||
                 t = ("patch".toList) then .error .malformedCurrent
              else .error .invalidReleaseType
          | some v =>
              if t = ("major".toList) then .ok (renderSemVer (v.1 + 1, 0, 0))
              else if t = ("minor".toList) then
                .ok (renderSemVer (v.1, v.2.1 + 1, 0))
              else if t = ("patch".toList) then
                .ok (renderSemVer (v.1, v.2.1, v.2.2 + 1))
              else .error .invalidReleaseType

/-- Substring containment (grep with a literal pattern on one line). -/
def containsSub (pat cs : List Char) : Bool :=
  (splitAtSub pat cs).isSome

/-- The release script's emptiness test: grep -A 5 over the pending-marker
literal piped into grep -q for "###" — true when some line containing the
marker has a "###" occurrence within itself or the five lines after it. -/
def unreleasedSectionCheck (lines : List (List Char)) : Bool :=
  (List.range lines.length).any (fun i =>
    containsSub ("## [Unreleased]".toList) (lines.getD i []) &&
    ((lines.drop i).take 6).any (fun l => containsSub ("###".toList) l))

/-- Outcome of the empty-pending-section guard. -/
inductive ReleaseGate where
  | proceed (warned : Bool)
  | abortEmpty
  deriving Repr, DecidableEq

/-- The empty-pending-section guard of the release script in non-interactive
mode (SKIP_PROMPTS true): when the grep test finds no subsection marker,
FORCE_RELEASE continues with a warning and otherwise the script exits with
an error before touching any file. -/
def emptyReleaseGate (lines : List (List Char)) (forceRelease : Bool) :
    ReleaseGate :=
  if unreleasedSectionCheck lines then .proceed false
  else if forceRelease then .proceed true
  else .abortEmpty

/-- Modelled from the spec (the release workflow's stated guard, used here
only as the comparison point for the grep heuristic): the pending section —
the lines strictly between the first pending-marker header line and the
next version header line — contains at least one type-subsection line. -/
def specUnreleasedNonempty (lines : List (List Char)) : Bool :=
  match lines.findIdx? (fun l => ("## [Unreleased]".toList).isPrefixOf l) with
  | none => false
  | some i =>
      ((lines.drop (i + 1)).takeWhile
          (fun l => !(("## [".toList).isPrefixOf l))).any
        (fun l => ("###".toList).isPrefixOf l)

/-- State of the awk program that rewrites CHANGELOG.md in the release
script: the output text, the in-unreleased flag, the version-link-added
flag, and the collected unreleased content. -/
structure AwkSt where
  out : List Char
  inUnr : Bool
  vla : Bool
  content : List Char
  deriving Repr, DecidableEq

/-- awk print: append the text and the output record separator. -/
def awkPrint (st : AwkSt) (s : List Char) : AwkSt :=
  { st with out := st.out ++ s ++ ['\n'] }

/-- One input record of the awk CHANGELOG.md rewrite, rules in program
order: replace the pending-marker header and start collecting; at the next
version header emit the new dated header and the collected content; collect
unreleased lines; rewrite the pending-marker comparison link; insert the
new version's comparison link before the first other link line; print. -/
def awkLine (version date prevVersion repoUrl : List Char) (st : AwkSt)
    (line : List Char) : AwkSt :=
  if ("## [Unreleased]".toList).isPrefixOf line then
    { awkPrint (awkPrint st ("## [Unreleased]".toList)) [] with inUnr := true }
  else
    let st1 :=
      if ("## [".toList).isPrefixOf line && st.inUnr then
        let a := awkPrint st
          (("## [".toList) ++ version ++ ("] - ".toList) ++ date)
        let b := awkPrint a []
        { awkPrint b st.content with inUnr := false }
      else st
    if st1.inUnr then { st1 with content := st1.content ++ line ++ ['\n'] }
    else if ("[Unreleased]:".toList).isPrefixOf line then
      awkPrint st1 (("[Unreleased]: ".toList) ++ repoUrl ++
        ("/compare/v".toList) ++ version ++ ("...HEAD".toList))
    else
      let st2 :=
        if ("[".toList).isPrefixOf line && !st1.vla then
          { awkPrint st1 (("[".toList) ++ version ++ ("]: ".toList) ++
              repoUrl ++ ("/compare/v".toList) ++ prevVersion ++
              ("...v".toList) ++ version) with vla := true }
        else st1
      awkPrint st2 line

/-- The whole awk rewrite over the document's records (its lines). -/
def awkRewrite (version date prevVersion repoUrl : List Char)
    (lines : List (List Char)) : List Char :=
  (lines.foldl (awkLine version date prevVersion repoUrl)
    { out := [], inUnr := false, vla := false, content := [] }).out

/-- The text of a sequence of records, each followed by a newline. -/
def linesText (ls : List (List Char)) : List Char :=
  ls.flatMap (fun l => l ++ ['\n'])

/-- Whitespace-only character list. -/
def wsOnly (w : List Char) : Bool :=
  w.all jsWS

/-- The language of the frontmatter regex, stated declaratively: an opening
delimiter line, a frontmatter block, a closing delimiter line, and a body,
where the delimiter lines are "---" plus whitespace ending in a newline. -/
def HasFrontmatter (cs : List Char) : Prop :=
  ∃ w1 fm w2 body, wsOnly w1 = true ∧ wsOnly w2 = true ∧
    cs = ("---".toList) ++ w1 ++ '\n' ::
      (fm ++ ("\n---".toList) ++ w2 ++ '\n' :: body)

/-- A fragment file text with the issue key missing, the claimed required
keys otherwise present. -/
def c1MissingIssue : List Char :=
  "---\ntype: added\ntitle: \"T\"\n---\n\nbody\n".toList

/-- A fragment file text whose issue value is zero, not a positive integer. -/
def c1ZeroIssue : List Char :=
  "---\ntype: fixed\nissue: 0\ntitle: \"T\"\n---\n\nbody\n".toList

/-- A fragment file text whose body is whitespace only. -/
def c1EmptyBody : List Char :=
  "---\ntype: added\nissue: 3\ntitle: \"T\"\n---\n\n  \n".toList

/-- A fragment file content whose frontmatter lacks the issue key but has
well-formed delimiters. -/
def c3BadContent : List Char :=
  "---\ntype: added\ntitle: \"No issue here\"\n---\n\n- no issue\n".toList

/-- A well-formed fragment file content. -/
def c3GoodContent : List Char :=
  "---\ntype: fixed\nissue: 7\ntitle: \"Good\"\n---\n\n- ok\n".toList

/-- A directory holding one fragment missing the issue key and one valid
fragment. -/
def c3Dir : List (List Char × List Char) :=
  [(("5.md".toList), c3BadContent), (("7.md".toList), c3GoodContent)]

/-- A fragment file content with no frontmatter delimiters at all. -/
def c3NoDelims : List Char :=
  "just some notes, not a fragment\n".toList

/-- Prefix directory used by the partial-failure witness. -/
def c3Dir1 : List (List Char × List Char) :=
  [(("1.md".toList),
    ("---\ntype: added\nissue: 1\ntitle: \"A\"\n---\n\n- a\n".toList))]

/-- Suffix directory used by the partial-failure witness. -/
def c3Dir2 : List (List Char × List Char) :=
  [(("9.md".toList),
    ("---\ntype: security\nissue: 9\ntitle: \"S\"\n---\n\n- s\n".toList))]

/-- The taxonomy in the fixed priority order of the type-order table. -/
def KNOWN_TYPES : List (List Char) :=
  [("added".toList), ("changed".toList), ("deprecated".toList),
   ("removed".toList), ("fixed".toList), ("security".toList)]

/-- A fragment with an unknown type late in the alphabet. -/
def c4Zebra : Fragment :=
  { type := some ("zebra".toList), issue := some 1,
    title := some ("Z".toList), body := ("- z".toList),
    filename := ("1.md".toList) }

/-- A fragment with an unknown type early in the alphabet. -/
def c4Alpha : Fragment :=
  { type := some ("alpha".toList), issue := some 2,
    title := some ("A".toList), body := ("- a".toList),
    filename := ("2.md".toList) }

/-- A fragment with the unknown type omega, for the determinism claim. -/
def c5Omega : Fragment :=
  { type := some ("omega".toList), issue := some 3,
    title := some ("O".toList), body := ("- o".toList),
    filename := ("3.md".toList) }

/-- A fragment with the unknown type beta, for the determinism claim. -/
def c5Beta : Fragment :=
  { type := some ("beta".toList), issue := some 4,
    title := some ("B".toList), body := ("- b".toList),
    filename := ("4.md".toList) }

/-- A known-type fragment used by the determinism witness. -/
def c5F1 : Fragment :=
  { type := some ("fixed".toList), issue := some 10,
    title := some ("Fix X".toList), body := ("- fx".toList),
    filename := ("10.md".toList) }

/-- A second known-type fragment used by the determinism witness. -/
def c5F2 : Fragment :=
  { type := some ("added".toList), issue := some 5,
    title := some ("Add Y".toList), body := ("- ay".toList),
    filename := ("5.md".toList) }

/-- A changelog whose pending section already holds unmerged content,
formatted the usual way (a blank line after the pending-marker header). -/
def c6Doc : List Char :=
  "# C\n\n## [Unreleased]\n\n### Old\n- o\n\n## [0.1.0] - D\n".toList

/-- A rendered section block, as the aggregation engine produces it. -/
def c6Section : List Char :=
  "### Added\n- **T** (#1)\n".toList

/-- A second changelog with pending content, used by the merge witness. -/
def c6DocW : List Char :=
  "# Log\n\n## [Unreleased]\n### Kept\n- k\n\n## [1.0.0] - X\n".toList

/-- Concrete changelog lines on which the release script's emptiness grep
misfires: the pending section is empty, but the previous release's first
type-subsection sits within the five-line grep window after the marker. -/
def c8FailingDoc : List (List Char) :=
  [("## [Unreleased]".toList), [], ("## [1.0.0] - 2024-01-01".toList), [],
   ("### Added".toList), ("- old".toList)]

/-!  Theorems.  -/

theorem digitChar_toNat {n : Nat} (h : n < 10) : (digitChar n).toNat = 48 + n := by
  interval_cases n <;> decide

theorem natStrAux_mem {f n : Nat} (h : n ≤ f) {c : Char}
    (hm : c ∈ natStrAux f n) : ∃ d, d < 10 ∧ c = digitChar d := by
  induction f generalizing n with
  | zero =>
      have hn : n = 0 := Nat.le_zero.mp h
      subst hn
      simp [natStrAux] at hm
      exact ⟨0, by norm_num, hm⟩
  | succ f ih =>
      rw [natStrAux] at hm
      by_cases h10 : n < 10
      · simp [h10] at hm
        exact ⟨n, h10, hm⟩
      · simp [h10] at hm
        rcases hm with hm | hm
        · have hle : n / 10 ≤ f := by
            have : n / 10 < n := Nat.div_lt_self (by omega) (by norm_num)
            omega
          exact ih hle hm
        · exact ⟨n % 10, Nat.mod_lt _ (by norm_num), hm⟩

theorem digitsVal_append_one (xs : List Char) (c : Char) :
    digitsVal (xs ++ [c]) = digitsVal xs * 10 + (c.toNat - 48) := by
  simp [digitsVal, List.foldl_append]

theorem digitsVal_natStrAux {f n : Nat} (h : n ≤ f) :
    digitsVal (natStrAux f n) = n := by
  induction f generalizing n with
  | zero =>
      have hn : n = 0 := Nat.le_zero.mp h
      subst hn
      decide
  | succ f ih =>
      rw [natStrAux]
      by_cases h10 : n < 10
      · simp only [h10, if_true]
        simp [digitsVal, digitChar_toNat h10]
      · simp only [h10, if_false]
        rw [digitsVal_append_one]
        have hle : n / 10 ≤ f := by
          have : n / 10 < n := Nat.div_lt_self (by omega) (by norm_num)
          omega
        rw [ih hle, digitChar_toNat (Nat.mod_lt _ (by norm_num))]
        omega

theorem natStrAux_ne_nil (f n : Nat) : natStrAux f n ≠ [] := by
  cases f with
  | zero => simp [natStrAux]
  | succ f =>
      rw [natStrAux]
      by_cases h10 : n < 10 <;> simp [h10]

theorem natStr_mem {n : Nat} {c : Char} (hm : c ∈ natStr n) :
    ∃ d, d < 10 ∧ c = digitChar d :=
  natStrAux_mem (Nat.le_refl n) hm

theorem digitsVal_natStr (n : Nat) : digitsVal (natStr n) = n :=
  digitsVal_natStrAux (Nat.le_refl n)

theorem natStr_ne_nil (n : Nat) : natStr n ≠ [] :=
  natStrAux_ne_nil n n

theorem natStr_all_digit (n : Nat) : (natStr n).all Char.isDigit = true := by
  rw [List.all_eq_true]
  intro c hc
  obtain ⟨d, hd, rfl⟩ := natStr_mem hc
  interval_cases d <;> decide

theorem jsWS_digitChar {d : Nat} (hd : d < 10) : jsWS (digitChar d) = false := by
  interval_cases d <;> decide

theorem natStr_all_not_lineTerm (n : Nat) :
    (natStr n).all (fun c => !isLineTerm c) = true := by
  rw [List.all_eq_true]
  intro c hc
  obtain ⟨d, hd, rfl⟩ := natStr_mem hc
  show (!isLineTerm (digitChar d)) = true
  interval_cases d <;> decide

theorem natStr_no_char (n : Nat) (c : Char) (hc : ∀ d, d < 10 → digitChar d ≠ c) :
    c ∉ natStr n := by
  intro hmem
  obtain ⟨d, hd, he⟩ := natStr_mem hmem
  exact hc d hd he.symm

theorem parseIntJS_natStr (n : Nat) : parseIntJS (natStr n) = some (n : Int) := by
  obtain ⟨c, rest, hcr⟩ := List.exists_cons_of_ne_nil (natStr_ne_nil n)
  obtain ⟨d, hd, hc⟩ := natStr_mem (n := n) (c := c)
    (by rw [hcr]; exact List.mem_cons_self _ _)
  have hws : jsWS c = false := by rw [hc]; exact jsWS_digitChar hd
  have hdrop : (natStr n).dropWhile jsWS = natStr n := by
    rw [hcr, List.dropWhile_cons, hws]
    simp
  have hcneg : c ≠ '-' := by rw [hc]; interval_cases d <;> decide
  have hcpos : c ≠ '+' := by rw [hc]; interval_cases d <;> decide
  have htake : (natStr n).takeWhile Char.isDigit = natStr n := by
    rw [List.takeWhile_eq_self_iff]
    intro a ha
    obtain ⟨d2, hd2, rfl⟩ := natStr_mem ha
    interval_cases d2 <;> decide
  have hval : (natStr n).foldl (fun a ch => a * 10 + (ch.toNat - 48)) 0 = n :=
    digitsVal_natStr n
  rw [parseIntJS, hdrop, hcr]
  simp only [hcneg, hcpos, Bool.or_self, Bool.false_or, if_false,
    decide_eq_true_eq]
  rw [hcr] at htake hval
  rw [htake, hval]
  simp

theorem splitOnChar_no_sep {sep : Char} {xs : List Char} (h : sep ∉ xs) :
    splitOnChar sep xs = [xs] := by
  induction xs with
  | nil => rfl
  | cons c cs ih =>
      rw [splitOnChar]
      have hc : ¬(c = sep) := fun he => h (he ▸ List.mem_cons_self c cs)
      rw [if_neg hc, ih (fun hm => h (List.mem_cons_of_mem _ hm))]

theorem splitOnChar_append {sep : Char} {xs rest : List Char} (h : sep ∉ xs) :
    splitOnChar sep (xs ++ sep :: rest) = xs :: splitOnChar sep rest := by
  induction xs with
  | nil => simp [splitOnChar]
  | cons c cs ih =>
      rw [List.cons_append, splitOnChar]
      have hc : ¬(c = sep) := fun he => h (he ▸ List.mem_cons_self c cs)
      rw [if_neg hc, ih (fun hm => h (List.mem_cons_of_mem _ hm))]

theorem dot_not_digitChar : ∀ d, d < 10 → digitChar d ≠ '.' := by
  intro d hd
  interval_cases d <;> decide

theorem parseSemVer_renderSemVer (v : Nat × Nat × Nat) :
    parseSemVer (renderSemVer v) = some v := by
  obtain ⟨a, b, c⟩ := v
  have hna : '.' ∉ natStr a := natStr_no_char a '.' dot_not_digitChar
  have hnb : '.' ∉ natStr b := natStr_no_char b '.' dot_not_digitChar
  have hnc : '.' ∉ natStr c := natStr_no_char c '.' dot_not_digitChar
  rw [parseSemVer, renderSemVer]
  rw [List.append_assoc, List.cons_append]
  rw [splitOnChar_append hna, splitOnChar_append hnb, splitOnChar_no_sep hnc]
  simp [natStr_ne_nil, natStr_all_digit, digitsVal_natStr]

/-- C10: in interactive fragment creation a numeric choice i (1 through 6)
selects the i-th entry of the displayed list, whose order is added, fixed,
changed, deprecated, removed, security — so 2 selects fixed and 3 selects
changed — and that menu order differs from the aggregation priority order
obtained by sorting the taxonomy with the type-order table. -/
theorem menu_choice_selects_menu_entry (i : Nat) (h1 : 1 ≤ i) (h2 : i ≤ 6) :
    selectChangeType (natStr i) = .ok (CHANGE_TYPES.getD (i - 1) []) ∧
    CHANGE_TYPES =
      [("added".toList), ("fixed".toList), ("changed".toList),
       ("deprecated".toList), ("removed".toList), ("security".toList)] ∧
    CHANGE_TYPES.getD 1 [] = ("fixed".toList) ∧
    CHANGE_TYPES.getD 2 [] = ("changed".toList) ∧
    stableSort typeLt CHANGE_TYPES =
      [("added".toList), ("changed".toList), ("deprecated".toList),
       ("removed".toList), ("fixed".toList), ("security".toList)] ∧
    CHANGE_TYPES ≠ stableSort typeLt CHANGE_TYPES := by
  interval_cases i <;> exact ⟨rfl, by decide, by decide, by decide,
    by decide, by decide⟩

/-- Witness for the menu-selection theorem at choice 2. -/
theorem menu_choice_selects_menu_entry_w :
    selectChangeType (natStr 2) = .ok (CHANGE_TYPES.getD (2 - 1) []) ∧
    CHANGE_TYPES =
      [("added".toList), ("fixed".toList), ("changed".toList),
       ("deprecated".toList), ("removed".toList), ("security".toList)] ∧
    CHANGE_TYPES.getD 1 [] = ("fixed".toList) ∧
    CHANGE_TYPES.getD 2 [] = ("changed".toList) ∧
    stableSort typeLt CHANGE_TYPES =
      [("added".toList), ("changed".toList), ("deprecated".toList),
       ("removed".toList), ("fixed".toList), ("security".toList)] ∧
    CHANGE_TYPES ≠ stableSort typeLt CHANGE_TYPES :=
  menu_choice_selects_menu_entry 2 (by decide) (by decide)

/-- C7 counterexample: an explicit custom version strictly lower than the
current version is accepted verbatim by the release script's version
computation; no comparison against the current version is performed, so the
claimed InvalidVersion rejection does not exist. -/
theorem custom_version_lower_accepted :
    computeNewVersion ("1.2.3".toList) (some ("0.0.1".toList)) none =
      .ok ("0.0.1".toList) ∧
    parseSemVer ("0.0.1".toList) = some (0, 0, 1) ∧
    parseSemVer ("1.2.3".toList) = some (1, 2, 3) ∧
    semverLt (0, 0, 1) (1, 2, 3) = true := by
  exact ⟨rfl, by decide, by decide, by decide⟩

/-- C7 amended: the bumped versions computed from RELEASE_TYPE are strictly
greater than a well-formed current version under semantic-version ordering,
while an explicit CUSTOM_VERSION is returned verbatim without any
comparison against the current version. -/
theorem computed_bump_strictly_greater (cur : List Char) (v : Nat × Nat × Nat)
    (h : parseSemVer cur = some v) :
    (computeNewVersion cur none (some ("major".toList)) =
        .ok (renderSemVer (v.1 + 1, 0, 0)) ∧
      semverLt v (v.1 + 1, 0, 0) = true ∧
      parseSemVer (renderSemVer (v.1 + 1, 0, 0)) = some (v.1 + 1, 0, 0)) ∧
    (computeNewVersion cur none (some ("minor".toList)) =
        .ok (renderSemVer (v.1, v.2.1 + 1, 0)) ∧
      semverLt v (v.1, v.2.1 + 1, 0) = true ∧
      parseSemVer (renderSemVer (v.1, v.2.1 + 1, 0)) =
        some (v.1, v.2.1 + 1, 0)) ∧
    (computeNewVersion cur none (some ("patch".toList)) =
        .ok (renderSemVer (v.1, v.2.1, v.2.2 + 1)) ∧
      semverLt v (v.1, v.2.1, v.2.2 + 1) = true ∧
      parseSemVer (renderSemVer (v.1, v.2.1, v.2.2 + 1)) =
        some (v.1, v.2.1, v.2.2 + 1)) ∧
    (∀ custom : List Char,
      computeNewVersion cur (some custom) none = .ok custom) := by
  obtain ⟨a, b, c⟩ := v
  refine ⟨⟨?_, ?_, parseSemVer_renderSemVer _⟩, ⟨?_, ?_, parseSemVer_renderSemVer _⟩,
    ⟨?_, ?_, parseSemVer_renderSemVer _⟩, fun custom => rfl⟩ <;>
    simp [computeNewVersion, h, semverLt]

/-- Witness for the bump theorem at current version 1.2.3, checking the
specification's examples bump(1.2.3, major) = 2.0.0, bump(1.2.3, minor) =
1.3.0 and bump(1.2.3, patch) = 1.2.4. -/
theorem computed_bump_strictly_greater_w :
    computeNewVersion ("1.2.3".toList) none (some ("major".toList)) =
      .ok ("2.0.0".toList) ∧
    computeNewVersion ("1.2.3".toList) none (some ("minor".toList)) =
      .ok ("1.3.0".toList) ∧
    computeNewVersion ("1.2.3".toList) none (some ("patch".toList)) =
      .ok ("1.2.4".toList) := by
  have h := computed_bump_strictly_greater ("1.2.3".toList) (1, 2, 3) (by decide)
  refine ⟨?_, ?_, ?_⟩
  · have := h.1.1
    simpa using this
  · have := h.2.1.1
    simpa using this
  · have := h.2.2.1.1
    simpa using this

/-- C8: the release script's emptiness guard is a five-line grep window
after the pending marker; on this document the pending section has no
type-subsection, yet the previous release's subsection header falls inside
the window, so the script proceeds instead of failing with EmptyRelease. -/
theorem empty_check_fooled_by_next_section :
    specUnreleasedNonempty c8FailingDoc = false ∧
    unreleasedSectionCheck c8FailingDoc = true ∧
    emptyReleaseGate c8FailingDoc false = .proceed false ∧
    emptyReleaseGate ([("## [Unreleased]".toList), []]) false = .abortEmpty ∧
    emptyReleaseGate ([("## [Unreleased]".toList), []]) true = .proceed true := by
  exact ⟨by decide, by decide, by decide, by decide, by decide⟩

theorem wsNlSplitsAux_acc_subset (cs : List Char) :
    ∀ acc, acc ⊆ wsNlSplitsAux cs acc := by
  induction cs with
  | nil => intro acc; rw [wsNlSplitsAux]; exact fun x hx => hx
  | cons c cs ih =>
      intro acc
      rw [wsNlSplitsAux]
      by_cases hc : c = '\n'
      · rw [if_pos hc]
        exact fun x hx => ih (cs :: acc) (List.mem_cons_of_mem _ hx)
      · rw [if_neg hc]
        by_cases hw : jsWS c
        · rw [if_pos hw]; exact ih acc
        · rw [if_neg hw]; exact fun x hx => hx

theorem mem_wsNlSplitsAux {w r : List Char} (hw : wsOnly w = true) :
    ∀ acc, r ∈ wsNlSplitsAux (w ++ '\n' :: r) acc := by
  induction w with
  | nil =>
      intro acc
      rw [List.nil_append, wsNlSplitsAux, if_pos rfl]
      exact wsNlSplitsAux_acc_subset r (r :: acc) (List.mem_cons_self _ _)
  | cons c w ih =>
      intro acc
      have hcw : jsWS c = true ∧ wsOnly w = true := by
        rw [wsOnly, List.all_cons, Bool.and_eq_true] at hw
        exact ⟨hw.1, hw.2⟩
      rw [List.cons_append, wsNlSplitsAux]
      by_cases hc : c = '\n'
      · rw [if_pos hc]; exact ih hcw.2 _
      · rw [if_neg hc, if_pos hcw.1]; exact ih hcw.2 _

theorem wsNlSplitsAux_sound {r : List Char} : ∀ cs acc,
    r ∈ wsNlSplitsAux cs acc →
    r ∈ acc ∨ ∃ w, wsOnly w = true ∧ cs = w ++ '\n' :: r := by
  intro cs
  induction cs with
  | nil =>
      intro acc h
      rw [wsNlSplitsAux] at h
      exact Or.inl h
  | cons c cs ih =>
      intro acc h
      rw [wsNlSplitsAux] at h
      by_cases hc : c = '\n'
      · rw [if_pos hc] at h
        rcases ih _ h with hacc | ⟨w, hw, hcs⟩
        · rcases List.mem_cons.mp hacc with heq | hacc2
          · subst heq
            exact Or.inr ⟨[], rfl, by rw [hc]; rfl⟩
          · exact Or.inl hacc2
        · refine Or.inr ⟨c :: w, ?_, by rw [hcs, List.cons_append]⟩
          rw [wsOnly, List.all_cons, hc]
          exact by simp [jsWS, wsOnly] at hw ⊢; exact hw
      · rw [if_neg hc] at h
        by_cases hws : jsWS c
        · rw [if_pos hws] at h
          rcases ih _ h with hacc | ⟨w, hw, hcs⟩
          · exact Or.inl hacc
          · refine Or.inr ⟨c :: w, ?_, by rw [hcs, List.cons_append]⟩
            rw [wsOnly, List.all_cons, hws]
            simpa [wsOnly] using hw
        · rw [if_neg hws] at h
          exact Or.inl h

theorem mem_wsNlSplits {w r : List Char} (hw : wsOnly w = true) :
    r ∈ wsNlSplits (w ++ '\n' :: r) :=
  mem_wsNlSplitsAux hw []

theorem wsNlSplits_sound {cs r : List Char} (h : r ∈ wsNlSplits cs) :
    ∃ w, wsOnly w = true ∧ cs = w ++ '\n' :: r := by
  rcases wsNlSplitsAux_sound cs [] h with hacc | hex
  · exact absurd hacc (List.not_mem_nil r)
  · exact hex

theorem closeAt_sound {cs B : List Char} (h : closeAt cs = some B) :
    ∃ w2, wsOnly w2 = true ∧ cs = ("---".toList) ++ w2 ++ '\n' :: B := by
  rw [closeAt.eq_def] at h
  split at h
  · next r =>
      have hmem : B ∈ wsNlSplits r := by
        cases hv : wsNlSplits r with
        | nil => rw [hv] at h; exact absurd h (by simp)
        | cons x xs =>
            rw [hv] at h
            simp only [List.head?] at h
            have hx : x = B := Option.some_inj.mp h
            rw [← hx]
            exact List.mem_cons_self _ _
      obtain ⟨w2, hw2, hr⟩ := wsNlSplits_sound hmem
      exact ⟨w2, hw2, by rw [hr]; rfl⟩
  · exact absurd h (by simp)

theorem closeAt_complete {w2 B : List Char} (hw2 : wsOnly w2 = true) :
    ∃ b, closeAt (("---".toList) ++ w2 ++ '\n' :: B) = some b := by
  have : closeAt (("---".toList) ++ w2 ++ '\n' :: B) =
      (wsNlSplits (w2 ++ '\n' :: B)).head? := rfl
  rw [this]
  have hmem : B ∈ wsNlSplits (w2 ++ '\n' :: B) := mem_wsNlSplits hw2
  obtain ⟨x, xs, hv⟩ := List.exists_cons_of_ne_nil (List.ne_nil_of_mem hmem)
  exact ⟨x, by rw [hv]; rfl⟩

theorem findClose_cons_close {c : Char} {cs b : List Char} (hc : c = '\n')
    (h : closeAt cs = some b) (acc : List Char) :
    findClose acc (c :: cs) = some (acc.reverse, b) := by
  rw [findClose, if_pos hc, h]

theorem findClose_cons_step {c : Char} {cs : List Char}
    (h : c ≠ '\n' ∨ closeAt cs = none) (acc : List Char) :
    findClose acc (c :: cs) = findClose (c :: acc) cs := by
  rw [findClose]
  rcases h with h | h
  · rw [if_neg h]
  · by_cases hc : c = '\n'
    · rw [if_pos hc, h]
    · rw [if_neg hc]

theorem findClose_sound : ∀ (cs acc F B : List Char),
    findClose acc cs = some (F, B) →
    ∃ Fp w2, F = acc.reverse ++ Fp ∧ wsOnly w2 = true ∧
      cs = Fp ++ '\n' :: (("---".toList) ++ w2 ++ '\n' :: B) := by
  intro cs
  induction cs with
  | nil =>
      intro acc F B h
      exact absurd h (by rw [findClose]; simp)
  | cons c cs ih =>
      intro acc F B h
      by_cases hc : c = '\n'
      · cases hclose : closeAt cs with
        | some b =>
            rw [findClose_cons_close hc hclose] at h
            have hp : (acc.reverse, b) = (F, B) := Option.some_inj.mp h
            have hF : acc.reverse = F := congrArg Prod.fst hp
            have hB : b = B := congrArg Prod.snd hp
            obtain ⟨w2, hw2, hcs⟩ := closeAt_sound hclose
            refine ⟨[], w2, by rw [← hF]; simp, hw2, ?_⟩
            rw [hcs, hc, hB]
            rfl
        | none =>
            rw [findClose_cons_step (Or.inr hclose)] at h
            obtain ⟨Fp, w2, hF, hw2, hcs⟩ := ih (c :: acc) F B h
            refine ⟨c :: Fp, w2, ?_, hw2, by rw [hcs, List.cons_append]⟩
            rw [hF, List.reverse_cons, List.append_assoc]
            rfl
      · rw [findClose_cons_step (Or.inl hc)] at h
        obtain ⟨Fp, w2, hF, hw2, hcs⟩ := ih (c :: acc) F B h
        refine ⟨c :: Fp, w2, ?_, hw2, by rw [hcs, List.cons_append]⟩
        rw [hF, List.reverse_cons, List.append_assoc]
        rfl

theorem findClose_complete : ∀ (Fp : List Char) {w2 B : List Char}
    (_ : wsOnly w2 = true) (cs acc : List Char)
    (_ : cs = Fp ++ '\n' :: (("---".toList) ++ w2 ++ '\n' :: B)),
    findClose acc cs ≠ none := by
  intro Fp
  induction Fp with
  | nil =>
      intro w2 B hw2 cs acc hcs
      obtain ⟨b, hb⟩ := closeAt_complete (B := B) hw2
      rw [hcs, List.nil_append, findClose_cons_close rfl hb]
      simp
  | cons a Fp ih =>
      intro w2 B hw2 cs acc hcs
      rw [hcs, List.cons_append]
      by_cases ha : a = '\n'
      · cases hclose : closeAt (Fp ++ '\n' :: (("---".toList) ++ w2 ++ '\n' :: B)) with
        | some b => rw [findClose_cons_close ha hclose]; simp
        | none =>
            rw [findClose_cons_step (Or.inr hclose)]
            exact ih hw2 _ _ rfl
      · rw [findClose_cons_step (Or.inl ha)]
        exact ih hw2 _ _ rfl

theorem tryOpens_sound : ∀ (list : List (List Char)) (fb : List Char × List Char),
    tryOpens list = some fb → ∃ r ∈ list, findClose [] r = some fb := by
  intro list
  induction list with
  | nil => intro fb h; exact absurd h (by rw [tryOpens]; simp)
  | cons r rs ih =>
      intro fb h
      rw [tryOpens] at h
      cases hfc : findClose [] r with
      | some fb2 =>
          rw [hfc] at h
          exact ⟨r, List.mem_cons_self _ _, by rw [hfc, ← Option.some_inj.mp h]⟩
      | none =>
          rw [hfc] at h
          obtain ⟨r2, hr2, hfc2⟩ := ih fb h
          exact ⟨r2, List.mem_cons_of_mem _ hr2, hfc2⟩

theorem tryOpens_complete : ∀ (list : List (List Char)) (r : List Char)
    (_ : r ∈ list) (_ : findClose [] r ≠ none), tryOpens list ≠ none := by
  intro list
  induction list with
  | nil => intro r hr; exact absurd hr (List.not_mem_nil r)
  | cons x xs ih =>
      intro r hr hfc
      rw [tryOpens]
      cases hx : findClose [] x with
      | some fb => simp
      | none =>
          rcases List.mem_cons.mp hr with heq | hmem
          · subst heq; exact absurd hx hfc
          · exact ih r hmem hfc

theorem matchFrontmatter_isSome_iff (cs : List Char) :
    (matchFrontmatter cs).isSome = true ↔ HasFrontmatter cs := by
  constructor
  · intro h
    rw [matchFrontmatter.eq_def] at h
    split at h
    · next rest =>
        obtain ⟨fb, hfb⟩ := Option.isSome_iff_exists.mp h
        obtain ⟨r, hrmem, hfc⟩ := tryOpens_sound _ _ hfb
        obtain ⟨w1, hw1, hrest⟩ := wsNlSplits_sound hrmem
        obtain ⟨Fp, w2, hF, hw2, hr⟩ := findClose_sound _ _ _ _ hfc
        refine ⟨w1, Fp, w2, fb.2, hw1, hw2, ?_⟩
        rw [hrest, hr]
        simp [List.append_assoc]
    · exact absurd h (by simp)
  · rintro ⟨w1, fm, w2, body, hw1, hw2, hcs⟩
    have hshape : cs = '-' :: '-' :: '-' ::
        (w1 ++ '\n' :: (fm ++ '\n' :: (("---".toList) ++ w2 ++ '\n' :: body))) := by
      rw [hcs]
      simp [List.append_assoc]
    rw [hshape, matchFrontmatter]
    have hmem := mem_wsNlSplits (r := fm ++ '\n' :: (("---".toList) ++ w2 ++ '\n' :: body)) hw1
    have hfc : findClose [] (fm ++ '\n' :: (("---".toList) ++ w2 ++ '\n' :: body)) ≠ none :=
      findClose_complete fm hw2 _ [] rfl
    have hto := tryOpens_complete _ _ hmem hfc
    cases hv : tryOpens (wsNlSplits
        (w1 ++ '\n' :: (fm ++ '\n' :: (("---".toList) ++ w2 ++ '\n' :: body)))) with
    | some fb => simp
    | none => exact absurd hv hto

/-- C1 counterexample: the parser accepts a fragment missing the issue key,
a fragment whose issue is zero, and a fragment whose body is whitespace
only, returning a fragment object rather than failing, so failure is not
equivalent to the claimed disjunction. -/
theorem parser_accepts_invalid_fragments :
    parseFrontmatter c1MissingIssue =
      some { type := some ("added".toList), issue := none,
             title := some ("T".toList), body := ("body".toList) } ∧
    parseFrontmatter c1ZeroIssue =
      some { type := some ("fixed".toList), issue := some 0,
             title := some ("T".toList), body := ("body".toList) } ∧
    parseFrontmatter c1EmptyBody =
      some { type := some ("added".toList), issue := some 3,
             title := some ("T".toList), body := [] } := by
  exact ⟨by decide, by decide, by decide⟩

/-- C1 amended: the parser fails exactly when the delimiter structure of
the frontmatter regex is absent; a missing required key, a non-positive
issue, or an empty body never causes failure (the parser returns undefined
or NaN fields and a possibly empty trimmed body instead, and produces no
pr field at all). -/
theorem parseFrontmatter_fails_iff_no_delimiters (content : List Char) :
    parseFrontmatter content = none ↔ ¬ HasFrontmatter content := by
  rw [← matchFrontmatter_isSome_iff]
  rw [parseFrontmatter.eq_def]
  cases h : matchFrontmatter content with
  | none => simp [h]
  | some fb => simp [h]

theorem readStep_shift (f : List Char × List Char)
    (a : List Fragment) (w : List (List Char)) :
    readStep (a, w) f = (a ++ (readStep ([], []) f).1, w ++ (readStep ([], []) f).2) := by
  rw [readStep, readStep]
  by_cases hc : isCandidate f.1
  · rw [if_pos hc, if_pos hc]
    cases parseFrontmatter f.2 with
    | some fr => simp
    | none => simp
  · rw [if_neg hc, if_neg hc]
    simp

theorem readFold_shift (files : List (List Char × List Char)) :
    ∀ (a : List Fragment) (w : List (List Char)),
    files.foldl readStep (a, w) =
      (a ++ (files.foldl readStep ([], [])).1,
       w ++ (files.foldl readStep ([], [])).2) := by
  induction files with
  | nil => intro a w; simp
  | cons f fs ih =>
      intro a w
      rw [List.foldl_cons, List.foldl_cons, readStep_shift]
      rw [ih (a ++ (readStep ([], []) f).1) (w ++ (readStep ([], []) f).2)]
      rw [ih (readStep ([], []) f).1 (readStep ([], []) f).2]
      simp [List.append_assoc]

/-- C3 counterexample: a fragment file missing the issue key parses without
error (the parser does not validate keys), so the store emits no warning
and includes the fragment — with a NaN issue — in its result, contrary to
the claimed one-warning-and-exclusion behavior. -/
theorem store_includes_missing_issue_fragment :
    readFragments (some c3Dir) =
      ([{ type := some ("added".toList), issue := none,
          title := some ("No issue here".toList),
          body := ("- no issue".toList), filename := ("5.md".toList) },
        { type := some ("fixed".toList), issue := some 7,
          title := some ("Good".toList),
          body := ("- ok".toList), filename := ("7.md".toList) }],
       []) := by
  decide

/-- C3 amended: a fragment file the parser rejects (its frontmatter
delimiters are missing) produces exactly one warning identifying that file
and is excluded from the result, while the remaining successfully parsed
files are returned unaffected; a file merely missing the issue key is not a
parse failure and is included with no warning. -/
theorem store_warns_once_and_continues
    (fs1 fs2 : List (List Char × List Char)) (n bad : List Char)
    (hn : isCandidate n = true)
    (hbad : parseFrontmatter bad = none)
    (h1 : (readFragments (some fs1)).2 = [])
    (h2 : (readFragments (some fs2)).2 = []) :
    readFragments (some (fs1 ++ (n, bad) :: fs2)) =
      ((readFragments (some fs1)).1 ++ (readFragments (some fs2)).1, [n]) := by
  have hr1 : readFragments (some fs1) = fs1.foldl readStep ([], []) := rfl
  have hr2 : readFragments (some fs2) = fs2.foldl readStep ([], []) := rfl
  have hfold1 : fs1.foldl readStep ([], []) = ((readFragments (some fs1)).1, []) := by
    rw [← hr1, ← h1]
  have hstep : readStep ((readFragments (some fs1)).1, []) (n, bad) =
      ((readFragments (some fs1)).1, [n]) := by
    rw [readStep]
    simp only [hn, if_true, hbad]
    simp
  show (fs1 ++ (n, bad) :: fs2).foldl readStep ([], []) = _
  rw [List.foldl_append, List.foldl_cons, hfold1, hstep, readFold_shift]
  rw [← hr2, h2]
  simp

/-- Witness for the partial-failure theorem: one delimiter-less file between
two valid fragments yields exactly that file as the only warning and both
valid fragments in order. -/
theorem store_warns_once_and_continues_w :
    readFragments (some (c3Dir1 ++ (("3.md".toList), c3NoDelims) :: c3Dir2)) =
      ((readFragments (some c3Dir1)).1 ++ (readFragments (some c3Dir2)).1,
       [("3.md".toList)]) :=
  store_warns_once_and_continues c3Dir1 c3Dir2 ("3.md".toList) c3NoDelims
    (by decide) (by decide) (by decide) (by decide)

theorem findClose_skip : ∀ (xs : List Char), '\n' ∉ xs →
    ∀ (acc rest : List Char),
    findClose acc (xs ++ rest) = findClose (xs.reverse ++ acc) rest := by
  intro xs
  induction xs with
  | nil => intro _ acc rest; rfl
  | cons c cs ih =>
      intro hx acc rest
      have hc : c ≠ '\n' := fun he => hx (he ▸ List.mem_cons_self c cs)
      rw [List.cons_append, findClose_cons_step (Or.inl hc) acc,
        ih (fun hm => hx (List.mem_cons_of_mem _ hm)) (c :: acc) rest]
      congr 1
      simp

theorem wsNlSplits_nl_nonws {c : Char} (hc : c ≠ '\n') (hws : jsWS c = false)
    (X : List Char) : wsNlSplits ('\n' :: c :: X) = [c :: X] := by
  rw [wsNlSplits, wsNlSplitsAux, if_pos rfl, wsNlSplitsAux, if_neg hc, hws]
  rw [if_neg (by simp)]

theorem wsNlSplits_two_nl {c : Char} (hc : c ≠ '\n') (hws : jsWS c = false)
    (X : List Char) :
    wsNlSplits ('\n' :: '\n' :: c :: X) = [c :: X, '\n' :: c :: X] := by
  rw [wsNlSplits, wsNlSplitsAux, if_pos rfl, wsNlSplitsAux, if_pos rfl,
    wsNlSplitsAux, if_neg hc, hws]
  rw [if_neg (by simp)]

theorem dropWhile_eq_self_of_head {p : Char → Bool} {l : List Char}
    (h : ∀ c, l.head? = some c → p c = false) : l.dropWhile p = l := by
  cases l with
  | nil => rfl
  | cons c cs =>
      rw [List.dropWhile_cons, h c rfl]
      simp

theorem jsTrim_eq_self {l : List Char}
    (hh : ∀ c, l.head? = some c → jsWS c = false)
    (hl : ∀ c, l.getLast? = some c → jsWS c = false) : jsTrim l = l := by
  rw [jsTrim, dropWhile_eq_self_of_head hh]
  rw [dropWhile_eq_self_of_head
    (fun c hc => hl c (by rwa [List.head?_reverse] at hc))]
  exact List.reverse_reverse l

theorem getLast?_joinNl : ∀ (ls : List (List Char)) (x : List Char),
    x ≠ [] → (joinNl (ls ++ [x])).getLast? = x.getLast? := by
  intro ls
  induction ls with
  | nil => intro x _; rfl
  | cons a as ih =>
      intro x hx
      obtain ⟨b, bs, hb⟩ := List.exists_cons_of_ne_nil
        (show as ++ [x] ≠ [] by simp)
      rw [List.cons_append, hb]
      have hred : joinNl (a :: b :: bs) = a ++ '\n' :: joinNl (b :: bs) := rfl
      rw [hred, List.getLast?_append_cons, ← hb]
      have hJ := ih x hx
      obtain ⟨c, hc⟩ : ∃ c, x.getLast? = some c := by
        cases hx2 : x.getLast? with
        | some c => exact ⟨c, rfl⟩
        | none =>
            obtain ⟨y, ys, hy⟩ := List.exists_cons_of_ne_nil hx
            rw [hy] at hx2
            exact absurd hx2 (by simp [List.getLast?])
      have hJne : joinNl (as ++ [x]) ≠ [] := by
        intro hnil
        rw [hnil] at hJ
        rw [hc] at hJ
        exact absurd hJ.symm (by simp)
      calc ('\n' :: joinNl (as ++ [x])).getLast?
          = (['\n'] ++ joinNl (as ++ [x])).getLast? := rfl
        _ = (joinNl (as ++ [x])).getLast? := List.getLast?_append_of_ne_nil _ hJne
        _ = x.getLast? := hJ

theorem joinNl_bullet_shape (l0 : List Char) (ls : List (List Char)) :
    ∃ D, joinNl (((l0 :: ls).map (fun l => ("- ".toList) ++ l))) =
      '-' :: ' ' :: D := by
  cases ls with
  | nil => exact ⟨l0, rfl⟩
  | cons b bs =>
      refine ⟨l0 ++ '\n' :: joinNl ((b :: bs).map (fun l => ("- ".toList) ++ l)), ?_⟩
      rfl

theorem head?_some_mem {α : Type} {l : List α} {c : α} (h : l.head? = some c) :
    c ∈ l := by
  cases l with
  | nil => exact absurd h (by simp)
  | cons a tl =>
      have : a = c := by simpa using h
      rw [← this]
      exact List.mem_cons_self _ _

theorem getLast?_some_mem {α : Type} {l : List α} {c : α}
    (h : l.getLast? = some c) : c ∈ l := by
  rw [← List.head?_reverse] at h
  have := head?_some_mem h
  rwa [List.mem_reverse] at this

theorem natStr_head_not_ws (n : Nat) :
    ∀ c, (natStr n).head? = some c → jsWS c = false := by
  intro c hc
  obtain ⟨d, hd, rfl⟩ := natStr_mem (head?_some_mem hc)
  exact jsWS_digitChar hd

theorem natStr_getLast_not_ws (n : Nat) :
    ∀ c, (natStr n).getLast? = some c → jsWS c = false := by
  intro c hc
  obtain ⟨d, hd, rfl⟩ := natStr_mem (getLast?_some_mem hc)
  exact jsWS_digitChar hd

theorem stripQuotes_eq_self {l : List Char}
    (hh : ∀ c, l.head? = some c → isQuote c = false)
    (hl : ∀ c, l.getLast? = some c → isQuote c = false) : stripQuotes l = l := by
  cases l with
  | nil => rfl
  | cons c cs =>
      rw [stripQuotes]
      simp only [hh c rfl, Bool.false_eq_true, if_false]
      cases hrev : (c :: cs).reverse with
      | nil => exact absurd hrev (by simp)
      | cons d ds =>
          have hd : (c :: cs).getLast? = some d := by
            rw [← List.head?_reverse, hrev]
            rfl
          simp only [hl d hd, Bool.false_eq_true, if_false]

theorem closeAt_of_head_ne {c : Char} (hc : c ≠ '-') (W : List Char) :
    closeAt (c :: W) = none := by
  rw [closeAt.eq_def]
  split
  · next r heq =>
      exact absurd (by injection heq) hc
  · rfl

theorem matchFrontmatter_fragment (s1 s2 s3 s4 D : List Char)
    (h1 : '\n' ∉ s1) (h2 : '\n' ∉ s2) (h3 : '\n' ∉ s3) (h4 : '\n' ∉ s4)
    (hs1 : ∃ W, s1 = 't' :: W)
    (hs2 : ∃ W, s2 = 'i' :: W) (hs3 : ∃ W, s3 = 'p' :: W)
    (hs4 : ∃ W, s4 = 't' :: W)
    (hD : ∃ W, D = '-' :: W) :
    matchFrontmatter ('-' :: '-' :: '-' :: '\n' ::
        (s1 ++ '\n' :: (s2 ++ '\n' :: (s3 ++ '\n' :: (s4 ++
          '\n' :: '-' :: '-' :: '-' :: '\n' :: '\n' :: (D ++ ['\n'])))))) =
      some (s1 ++ '\n' :: (s2 ++ '\n' :: (s3 ++ '\n' :: s4)), D ++ ['\n']) := by
  obtain ⟨W1, hW1⟩ := hs1
  obtain ⟨W2, hW2⟩ := hs2
  obtain ⟨W3, hW3⟩ := hs3
  obtain ⟨W4, hW4⟩ := hs4
  obtain ⟨WD, hWD⟩ := hD
  have hstart : matchFrontmatter ('-' :: '-' :: '-' :: '\n' ::
      (s1 ++ '\n' :: (s2 ++ '\n' :: (s3 ++ '\n' :: (s4 ++
        '\n' :: '-' :: '-' :: '-' :: '\n' :: '\n' :: (D ++ ['\n'])))))) =
      tryOpens (wsNlSplits ('\n' ::
      (s1 ++ '\n' :: (s2 ++ '\n' :: (s3 ++ '\n' :: (s4 ++
        '\n' :: '-' :: '-' :: '-' :: '\n' :: '\n' :: (D ++ ['\n']))))))) := rfl
  rw [hstart]
  rw [show s1 ++ '\n' :: (s2 ++ '\n' :: (s3 ++ '\n' :: (s4 ++
      '\n' :: '-' :: '-' :: '-' :: '\n' :: '\n' :: (D ++ ['\n'])))) =
      't' :: (W1 ++ '\n' :: (s2 ++ '\n' :: (s3 ++ '\n' :: (s4 ++
      '\n' :: '-' :: '-' :: '-' :: '\n' :: '\n' :: (D ++ ['\n'])))))
    from by rw [hW1, List.cons_append]]
  rw [wsNlSplits_nl_nonws (by decide) (by decide)]
  rw [tryOpens]
  rw [show ('t' : Char) :: (W1 ++ '\n' :: (s2 ++ '\n' :: (s3 ++ '\n' :: (s4 ++
      '\n' :: '-' :: '-' :: '-' :: '\n' :: '\n' :: (D ++ ['\n']))))) =
      s1 ++ '\n' :: (s2 ++ '\n' :: (s3 ++ '\n' :: (s4 ++
      '\n' :: '-' :: '-' :: '-' :: '\n' :: '\n' :: (D ++ ['\n']))))
    from by rw [hW1, List.cons_append]]
  rw [findClose_skip s1 h1]
  rw [findClose_cons_step (Or.inr (by
    rw [hW2, List.cons_append]
    exact closeAt_of_head_ne (by decide) _))]
  rw [findClose_skip s2 h2]
  rw [findClose_cons_step (Or.inr (by
    rw [hW3, List.cons_append]
    exact closeAt_of_head_ne (by decide) _))]
  rw [findClose_skip s3 h3]
  rw [findClose_cons_step (Or.inr (by
    rw [hW4, List.cons_append]
    exact closeAt_of_head_ne (by decide) _))]
  rw [findClose_skip s4 h4]
  have hclose : closeAt ('-' :: '-' :: '-' :: '\n' :: '\n' :: (D ++ ['\n'])) =
      some (D ++ ['\n']) := by
    have hred : closeAt ('-' :: '-' :: '-' :: '\n' :: '\n' :: (D ++ ['\n'])) =
        (wsNlSplits ('\n' :: '\n' :: (D ++ ['\n']))).head? := rfl
    rw [hred, show D ++ ['\n'] = '-' :: (WD ++ ['\n'])
        from by rw [hWD, List.cons_append],
      wsNlSplits_two_nl (by decide) (by decide)]
    rfl
  rw [findClose_cons_close rfl hclose]
  simp [List.reverse_append, List.append_assoc]

theorem keyValLine_type {t : List Char} (ht1 : t ≠ [])
    (ht3 : t.dropWhile jsWS = t) (ht4 : stripQuotes t = t) (ht5 : jsTrim t = t)
    (ht6 : t.all (fun c => !isLineTerm c) = true) :
    keyValLine (("type: ".toList) ++ t) = some (("type".toList), t) := by
  have hred : keyValLine (("type: ".toList) ++ t) =
      (lineValue (' ' :: t)).map
        (fun v => (("type".toList), jsTrim (stripQuotes v))) := rfl
  rw [hred, lineValue]
  rw [if_neg (by simp)]
  rw [show List.dropWhile jsWS (' ' :: t) = t from by
    rw [List.dropWhile_cons]
    simp only [show jsWS ' ' = true from rfl, if_true]
    exact ht3]
  rw [if_neg ht1, if_pos ht6]
  simp [ht4, ht5]

theorem keyValLine_issue (i : Nat) :
    keyValLine (("issue: ".toList) ++ natStr i) =
      some (("issue".toList), natStr i) := by
  have hred : keyValLine (("issue: ".toList) ++ natStr i) =
      (lineValue (' ' :: natStr i)).map
        (fun v => (("issue".toList), jsTrim (stripQuotes v))) := rfl
  have hq1 : ∀ c, (natStr i).head? = some c → isQuote c = false := by
    intro c hc
    obtain ⟨d, hd, rfl⟩ := natStr_mem (head?_some_mem hc)
    interval_cases d <;> decide
  have hq2 : ∀ c, (natStr i).getLast? = some c → isQuote c = false := by
    intro c hc
    obtain ⟨d, hd, rfl⟩ := natStr_mem (getLast?_some_mem hc)
    interval_cases d <;> decide
  rw [hred, lineValue]
  rw [if_neg (by simp)]
  rw [show List.dropWhile jsWS (' ' :: natStr i) = natStr i from by
    rw [List.dropWhile_cons]
    simp only [show jsWS ' ' = true from rfl, if_true]
    exact dropWhile_eq_self_of_head (natStr_head_not_ws i)]
  rw [if_neg (natStr_ne_nil i), if_pos (natStr_all_not_lineTerm i)]
  simp [stripQuotes_eq_self hq1 hq2,
    jsTrim_eq_self (natStr_head_not_ws i) (natStr_getLast_not_ws i)]

theorem keyValLine_pr (n : Nat) :
    keyValLine (("pr: ".toList) ++ natStr n) =
      some (("pr".toList), natStr n) := by
  have hred : keyValLine (("pr: ".toList) ++ natStr n) =
      (lineValue (' ' :: natStr n)).map
        (fun v => (("pr".toList), jsTrim (stripQuotes v))) := rfl
  have hq1 : ∀ c, (natStr n).head? = some c → isQuote c = false := by
    intro c hc
    obtain ⟨d, hd, rfl⟩ := natStr_mem (head?_some_mem hc)
    interval_cases d <;> decide
  have hq2 : ∀ c, (natStr n).getLast? = some c → isQuote c = false := by
    intro c hc
    obtain ⟨d, hd, rfl⟩ := natStr_mem (getLast?_some_mem hc)
    interval_cases d <;> decide
  rw [hred, lineValue]
  rw [if_neg (by simp)]
  rw [show List.dropWhile jsWS (' ' :: natStr n) = natStr n from by
    rw [List.dropWhile_cons]
    simp only [show jsWS ' ' = true from rfl, if_true]
    exact dropWhile_eq_self_of_head (natStr_head_not_ws n)]
  rw [if_neg (natStr_ne_nil n), if_pos (natStr_all_not_lineTerm n)]
  simp [stripQuotes_eq_self hq1 hq2,
    jsTrim_eq_self (natStr_head_not_ws n) (natStr_getLast_not_ws n)]

theorem stripQuotes_wrap (ti : List Char) :
    stripQuotes ('"' :: (ti ++ ['"'])) = ti := by
  rw [stripQuotes]
  simp only [show isQuote '"' = true from rfl, if_true]
  rw [show (ti ++ ['"']).reverse = '"' :: ti.reverse from by simp]
  simp only [show isQuote '"' = true from rfl, if_true]
  exact List.reverse_reverse ti

theorem keyValLine_title {ti : List Char}
    (hti3 : ∀ c, ti.head? = some c → jsWS c = false)
    (hti4 : ∀ c, ti.getLast? = some c → jsWS c = false)
    (hti5 : ti.all (fun c => !isLineTerm c) = true) :
    keyValLine (("title: \"".toList) ++ (ti ++ ['"'])) =
      some (("title".toList), ti) := by
  have hred : keyValLine (("title: \"".toList) ++ (ti ++ ['"'])) =
      (lineValue (' ' :: '"' :: (ti ++ ['"']))).map
        (fun v => (("title".toList), jsTrim (stripQuotes v))) := rfl
  have hall : ('"' :: (ti ++ ['"'])).all (fun c => !isLineTerm c) = true := by
    rw [List.all_cons, List.all_append, hti5]
    decide
  rw [hred, lineValue]
  rw [if_neg (by simp)]
  rw [show List.dropWhile jsWS (' ' :: '"' :: (ti ++ ['"'])) =
      '"' :: (ti ++ ['"']) from rfl]
  rw [if_neg (by simp), if_pos hall]
  simp [stripQuotes_wrap, jsTrim_eq_self hti3 hti4]

theorem nl_not_in_natStr (n : Nat) : '\n' ∉ natStr n :=
  natStr_no_char n '\n' (by intro d hd; interval_cases d <;> decide)

theorem generate_parse_aux (t ti : List Char) (i pr : Nat)
    (lines : List (List Char))
    (ht1 : t ≠ []) (ht2 : '\n' ∉ t)
    (ht3 : t.dropWhile jsWS = t) (ht4 : stripQuotes t = t) (ht5 : jsTrim t = t)
    (ht6 : t.all (fun c => !isLineTerm c) = true)
    (hti1 : ti ≠ []) (hti2 : '\n' ∉ ti)
    (hti3 : ∀ c, ti.head? = some c → jsWS c = false)
    (hti4 : ∀ c, ti.getLast? = some c → jsWS c = false)
    (hti5 : ti.all (fun c => !isLineTerm c) = true)
    (hlines : lines ≠ [])
    (hll : ∀ l ∈ lines, l ≠ [] ∧ (∀ c, l.getLast? = some c → jsWS c = false)) :
    parseFrontmatter (generateFragmentContent t i pr ti lines) =
      some { type := some t, issue := some (i : Int), title := some ti,
             body := joinNl (lines.map (fun l => ("- ".toList) ++ l)) } := by
  obtain ⟨l0, ls, hl0⟩ := List.exists_cons_of_ne_nil hlines
  subst hl0
  obtain ⟨D0, hD0⟩ := joinNl_bullet_shape l0 ls
  have hcontent : generateFragmentContent t i pr ti (l0 :: ls) =
      '-' :: '-' :: '-' :: '\n' ::
        ((("type: ".toList) ++ t) ++ '\n' ::
          ((("issue: ".toList) ++ natStr i) ++ '\n' ::
            ((("pr: ".toList) ++ natStr pr) ++ '\n' ::
              ((("title: \"".toList) ++ (ti ++ ['"'])) ++
                '\n' :: '-' :: '-' :: '-' :: '\n' :: '\n' ::
                  (joinNl ((l0 :: ls).map (fun l => ("- ".toList) ++ l)) ++
                    ['\n']))))) := by
    rw [generateFragmentContent]
    rw [show ("---\ntype: ".toList : List Char) =
      '-' :: '-' :: '-' :: '\n' :: ("type: ".toList) from rfl]
    rw [show ("\nissue: ".toList : List Char) = '\n' :: ("issue: ".toList) from rfl]
    rw [show ("\npr: ".toList : List Char) = '\n' :: ("pr: ".toList) from rfl]
    rw [show ("\ntitle: \"".toList : List Char) =
      '\n' :: ("title: \"".toList) from rfl]
    rw [show ("\"\n---\n\n".toList : List Char) =
      '"' :: '\n' :: '-' :: '-' :: '-' :: '\n' :: '\n' :: [] from rfl]
    rw [show ("\n".toList : List Char) = ['\n'] from rfl]
    simp [List.append_assoc]
  have h1 : '\n' ∉ ("type: ".toList) ++ t := by
    intro hm
    rcases List.mem_append.mp hm with h | h
    · exact absurd h (by decide)
    · exact ht2 h
  have h2 : '\n' ∉ ("issue: ".toList) ++ natStr i := by
    intro hm
    rcases List.mem_append.mp hm with h | h
    · exact absurd h (by decide)
    · exact nl_not_in_natStr i h
  have h3 : '\n' ∉ ("pr: ".toList) ++ natStr pr := by
    intro hm
    rcases List.mem_append.mp hm with h | h
    · exact absurd h (by decide)
    · exact nl_not_in_natStr pr h
  have h4 : '\n' ∉ ("title: \"".toList) ++ (ti ++ ['"']) := by
    intro hm
    rcases List.mem_append.mp hm with h | h
    · exact absurd h (by decide)
    · rcases List.mem_append.mp h with h | h
      · exact hti2 h
      · simp at h
  have hm := matchFrontmatter_fragment (("type: ".toList) ++ t)
    (("issue: ".toList) ++ natStr i) (("pr: ".toList) ++ natStr pr)
    (("title: \"".toList) ++ (ti ++ ['"']))
    (joinNl ((l0 :: ls).map (fun l => ("- ".toList) ++ l)))
    h1 h2 h3 h4
    ⟨("ype: ".toList) ++ t, rfl⟩
    ⟨("ssue: ".toList) ++ natStr i, rfl⟩
    ⟨("r: ".toList) ++ natStr pr, rfl⟩
    ⟨("itle: \"".toList) ++ (ti ++ ['"']), rfl⟩
    ⟨' ' :: D0, hD0⟩
  have hdesc_head : ∀ c,
      (joinNl ((l0 :: ls).map (fun l => ("- ".toList) ++ l)) ++ ['\n']).head? =
        some c → jsWS c = false := by
    intro c hc
    rw [hD0] at hc
    have : c = '-' := by simpa using hc.symm
    rw [this]
    decide
  have hdesc_last : ∀ c,
      (joinNl ((l0 :: ls).map (fun l => ("- ".toList) ++ l))).getLast? =
        some c → jsWS c = false := by
    intro c hc
    rcases List.eq_nil_or_concat (l0 :: ls) with hnil | ⟨init, lst, hconcat⟩
    · exact absurd hnil (by simp)
    · have hlstmem : lst ∈ l0 :: ls := by rw [hconcat]; simp
      have hlst := hll lst hlstmem
      rw [hconcat, List.concat_eq_append, List.map_append] at hc
      simp only [List.map_cons, List.map_nil] at hc
      rw [getLast?_joinNl _ _ (by simp)] at hc
      rw [List.getLast?_append_of_ne_nil _ hlst.1] at hc
      exact hlst.2 c hc
  have hbody : jsTrim
      (joinNl ((l0 :: ls).map (fun l => ("- ".toList) ++ l)) ++ ['\n']) =
      joinNl ((l0 :: ls).map (fun l => ("- ".toList) ++ l)) := by
    rw [jsTrim, dropWhile_eq_self_of_head hdesc_head]
    rw [show (joinNl ((l0 :: ls).map (fun l => ("- ".toList) ++ l)) ++
        ['\n']).reverse =
        '\n' :: (joinNl ((l0 :: ls).map (fun l => ("- ".toList) ++ l))).reverse
      from by simp]
    rw [List.dropWhile_cons]
    simp only [show jsWS '\n' = true from rfl, if_true]
    rw [dropWhile_eq_self_of_head
      (fun c hc => hdesc_last c (by rwa [List.head?_reverse] at hc))]
    exact List.reverse_reverse _
  have hsplit4 : splitLines ((("type: ".toList) ++ t) ++ '\n' ::
      ((("issue: ".toList) ++ natStr i) ++ '\n' ::
        ((("pr: ".toList) ++ natStr pr) ++ '\n' ::
          (("title: \"".toList) ++ (ti ++ ['"']))))) =
      [("type: ".toList) ++ t, ("issue: ".toList) ++ natStr i,
       ("pr: ".toList) ++ natStr pr, ("title: \"".toList) ++ (ti ++ ['"'])] := by
    rw [splitLines, splitOnChar_append h1, splitOnChar_append h2,
      splitOnChar_append h3, splitOnChar_no_sep h4]
  rw [hcontent, parseFrontmatter, hm]
  simp only [hsplit4, List.filterMap_cons, keyValLine_type ht1 ht3 ht4 ht5 ht6,
    keyValLine_issue, keyValLine_pr, keyValLine_title hti3 hti4 hti5,
    List.filterMap_nil]
  have hlk1 : metaLookup [(("type".toList), t), (("issue".toList), natStr i),
      (("pr".toList), natStr pr), (("title".toList), ti)] ("type".toList) =
      some t := rfl
  have hlk2 : metaLookup [(("type".toList), t), (("issue".toList), natStr i),
      (("pr".toList), natStr pr), (("title".toList), ti)] ("issue".toList) =
      some (natStr i) := rfl
  have hlk3 : metaLookup [(("type".toList), t), (("issue".toList), natStr i),
      (("pr".toList), natStr pr), (("title".toList), ti)] ("title".toList) =
      some ti := rfl
  rw [hlk1, hlk2, hlk3, hbody]
  simp [parseIntJS_natStr]

/-- C2 counterexample: two fragments that differ only in pr generate
different file texts, yet the parser maps both texts to the same result —
its output has no pr field — so no round trip through the writer and the
reader can reproduce the pr component of the tuple. -/
theorem roundtrip_drops_pr :
    generateFragmentContent ("added".toList) 1 5 ("T".toList) [("x".toList)] ≠
      generateFragmentContent ("added".toList) 1 7 ("T".toList)
        [("x".toList)] ∧
    parseFrontmatter
        (generateFragmentContent ("added".toList) 1 5 ("T".toList)
          [("x".toList)]) =
      parseFrontmatter
        (generateFragmentContent ("added".toList) 1 7 ("T".toList)
          [("x".toList)]) := by
  exact ⟨by decide, by decide⟩

/-- C2 amended: for every fragment tuple with a taxonomy type, a nonempty
title containing no line terminator (the metadata-line regex dot matches
neither a newline, a carriage return nor a Unicode line or paragraph
separator) and no whitespace at its ends, and nonempty body lines not
ending in whitespace, writing with the creator's generator and parsing
with the aggregator's parser reproduces type, issue and title exactly and
the body as the bullet-rendered line block; pr is written to the file but
dropped by the parser. -/
theorem roundtrip_reproduces_fields (t ti : List Char) (i pr : Nat)
    (lines : List (List Char))
    (ht : t ∈ CHANGE_TYPES)
    (hti1 : ti ≠ []) (hti2 : ∀ c ∈ ti, isLineTerm c = false)
    (hti3 : jsWS (ti.headD '-') = false)
    (hti4 : jsWS (ti.getLastD '-') = false)
    (hlines : lines ≠ [])
    (hl : ∀ l ∈ lines, l ≠ [] ∧ jsWS (l.getLastD '-') = false) :
    parseFrontmatter (generateFragmentContent t i pr ti lines) =
      some { type := some t, issue := some (i : Int), title := some ti,
             body := joinNl (lines.map (fun l => ("- ".toList) ++ l)) } := by
  have hti3' : ∀ c, ti.head? = some c → jsWS c = false := by
    intro c hc
    rwa [List.headD_eq_head?_getD, hc] at hti3
  have hti4' : ∀ c, ti.getLast? = some c → jsWS c = false := by
    intro c hc
    rwa [List.getLastD_eq_getLast?, hc] at hti4
  have hnl : '\n' ∉ ti := fun hm => absurd (hti2 '\n' hm) (by decide)
  have hti5 : ti.all (fun c => !isLineTerm c) = true := by
    rw [List.all_eq_true]
    intro c hc
    show (!isLineTerm c) = true
    rw [hti2 c hc]
    rfl
  have hl' : ∀ l ∈ lines, l ≠ [] ∧
      (∀ c, l.getLast? = some c → jsWS c = false) := by
    intro l hlm
    refine ⟨(hl l hlm).1, fun c hc => ?_⟩
    have := (hl l hlm).2
    rwa [List.getLastD_eq_getLast?, hc] at this
  fin_cases ht <;>
    exact generate_parse_aux _ _ _ _ _ (by decide) (by decide) (by decide)
      (by decide) (by decide) (by decide) hti1 hnl hti3' hti4' hti5 hlines hl'

/-- Witness for the round-trip theorem at a concrete fragment. -/
theorem roundtrip_reproduces_fields_w :
    parseFrontmatter (generateFragmentContent ("security".toList) 42 0
        ("Round trip".toList) [("first line".toList), ("second".toList)]) =
      some { type := some ("security".toList), issue := some (42 : Int),
             title := some ("Round trip".toList),
             body := joinNl ([("first line".toList), ("second".toList)].map
               (fun l => ("- ".toList) ++ l)) } :=
  roundtrip_reproduces_fields ("security".toList) ("Round trip".toList) 42 0
    [("first line".toList), ("second".toList)] (by decide) (by decide)
    (by decide) (by decide) (by decide) (by decide) (by decide)

theorem take_length_sub_append (l r : List Char) :
    (l ++ r).take ((l ++ r).length - r.length) = l := by
  have hlen : (l ++ r).length - r.length = l.length := by
    simp
  rw [hlen]
  exact List.take_left l r

theorem findUnreleasedAux_frame : ∀ (cs acc pre suf : List Char),
    findUnreleasedAux acc cs = some (pre, suf) →
    pre ++ suf = acc.reverse ++ cs := by
  intro cs
  induction cs with
  | nil =>
      intro acc pre suf h
      exact absurd h (by rw [findUnreleasedAux]; simp)
  | cons c cs ih =>
      intro acc pre suf h
      rw [findUnreleasedAux] at h
      by_cases hp : ("## [Unreleased]".toList).isPrefixOf (c :: cs)
      · rw [if_pos hp] at h
        cases hv : wsNlSplits ((c :: cs).drop 15) with
        | nil =>
            rw [hv] at h
            have := ih (c :: acc) pre suf h
            rw [this, List.reverse_cons, List.append_assoc]
            rfl
        | cons rest others =>
            rw [hv] at h
            have hpre : pre = acc.reverse ++
                (c :: cs).take ((c :: cs).length - rest.length) :=
              (congrArg Prod.fst (Option.some_inj.mp h)).symm
            have hsuf : suf = rest :=
              (congrArg Prod.snd (Option.some_inj.mp h)).symm
            have hrest : rest ∈ wsNlSplits ((c :: cs).drop 15) := by
              rw [hv]; exact List.mem_cons_self _ _
            obtain ⟨w, _, hw⟩ := wsNlSplits_sound hrest
            have hpref : c :: cs =
                ("## [Unreleased]".toList) ++ (c :: cs).drop 15 := by
              obtain ⟨tl, htl⟩ := List.isPrefixOf_iff_prefix.mp hp
              have hdrop : ((("## [Unreleased]".toList) : List Char) ++
                  tl).drop 15 = tl := by
                have hlen : (("## [Unreleased]".toList : List Char)).length = 15 :=
                  rfl
                rw [← hlen, List.drop_left]
              rw [← htl, hdrop]
            have hdecomp : c :: cs =
                (("## [Unreleased]".toList) ++ w ++ ['\n']) ++ rest := by
              rw [hpref, hw]
              simp
            rw [hpre, hsuf, hdecomp, take_length_sub_append]
            simp
      · rw [if_neg hp] at h
        have := ih (c :: acc) pre suf h
        rw [this, List.reverse_cons, List.append_assoc]
        rfl

theorem findUnreleased_frame {cs pre suf : List Char}
    (h : findUnreleased cs = some (pre, suf)) : cs = pre ++ suf :=
  (findUnreleasedAux_frame cs [] pre suf h).symm

/-- C6 counterexample: on a conventionally formatted changelog (one blank
line after the pending-marker header) with pending content, the merge
leaves two blank lines between the header and the inserted block — the
header match absorbs the existing blank line and one more newline is
added — so the inserted block is not separated by exactly one blank line
before it.  The warning is emitted and no character is lost. -/
theorem merge_two_blank_lines_before_block :
    updateChangelog c6Doc c6Section false =
      some (("# C\n\n## [Unreleased]\n\n\n### Added\n- **T** (#1)\n\n### Old\n- o\n\n## [0.1.0] - D\n".toList),
        true) := by
  decide

/-- C6 amended: when the pending section already has content, a non-dry-run
merge warns and splices one newline, the rendered block, and one newline
directly after the matched pending-marker header (the match absorbs the
header's trailing blank lines, so the block is separated from the header by
at least one blank line, one more than the document already had), and the
result is exactly prefix-plus-insertion-plus-suffix of the original
document: every pre-existing character is preserved. -/
theorem merge_warns_and_preserves (changelog s pre suf : List Char)
    (h : findUnreleased changelog = some (pre, suf))
    (hcontent : unreleasedContentOf suf ≠ []) :
    updateChangelog changelog s false =
      some (pre ++ '\n' :: (s ++ '\n' :: suf), true) ∧
    changelog = pre ++ suf := by
  refine ⟨?_, findUnreleased_frame h⟩
  rw [updateChangelog, h]
  simp [hcontent]

/-- Witness for the merge theorem on a concrete changelog with pending
content. -/
theorem merge_warns_and_preserves_w :
    updateChangelog c6DocW ("### New\n- n\n".toList) false =
      some (("# Log\n\n## [Unreleased]\n".toList) ++ '\n' ::
        (("### New\n- n\n".toList) ++ '\n' ::
          ("### Kept\n- k\n\n## [1.0.0] - X\n".toList)), true) ∧
    c6DocW = ("# Log\n\n## [Unreleased]\n".toList) ++
      ("### Kept\n- k\n\n## [1.0.0] - X\n".toList) :=
  merge_warns_and_preserves c6DocW ("### New\n- n\n".toList)
    ("# Log\n\n## [Unreleased]\n".toList)
    ("### Kept\n- k\n\n## [1.0.0] - X\n".toList) (by decide) (by decide)

theorem stableInsert_perm {α : Type} (lt : α → α → Bool) (x : α) :
    ∀ l : List α, (stableInsert lt x l).Perm (x :: l) := by
  intro l
  induction l with
  | nil => exact List.Perm.refl _
  | cons y ys ih =>
      rw [stableInsert]
      by_cases h : lt x y
      · rw [if_pos h]
      · rw [if_neg h]
        exact (ih.cons y).trans (List.Perm.swap x y ys)

theorem stableSort_perm {α : Type} (lt : α → α → Bool) (l : List α) :
    (stableSort lt l).Perm l := by
  suffices h : ∀ acc : List α,
      (l.foldl (fun acc x => stableInsert lt x acc) acc).Perm (acc ++ l) by
    simpa [stableSort] using h []
  induction l with
  | nil => intro acc; simp
  | cons x xs ih =>
      intro acc
      rw [List.foldl_cons]
      refine (ih (stableInsert lt x acc)).trans ?_
      refine (((stableInsert_perm lt x acc).append_right xs).trans ?_)
      exact List.perm_middle.symm

theorem mem_stableSort {α : Type} (lt : α → α → Bool) {l : List α} {a : α} :
    a ∈ stableSort lt l ↔ a ∈ l :=
  (stableSort_perm lt l).mem_iff

theorem stableInsert_sorted {α : Type} {lt : α → α → Bool}
    (htrans : ∀ a b c, lt a b = true → lt b c = true → lt a c = true)
    {x : α} : ∀ {l : List α},
    l.Pairwise (fun a b => lt a b = true) →
    (∀ y ∈ l, lt x y = false → lt y x = true) →
    (stableInsert lt x l).Pairwise (fun a b => lt a b = true) := by
  intro l
  induction l with
  | nil => intro _ _; simp [stableInsert]
  | cons y ys ih =>
      intro hs htot
      obtain ⟨hy, hys⟩ := List.pairwise_cons.mp hs
      rw [stableInsert]
      by_cases h : lt x y
      · rw [if_pos h]
        refine List.Pairwise.cons ?_ hs
        intro z hz
        rcases List.mem_cons.mp hz with rfl | hz2
        · exact h
        · exact htrans x y z h (hy z hz2)
      · rw [if_neg h]
        have h' : lt x y = false := by simpa using h
        refine List.Pairwise.cons ?_
          (ih hys (fun z hz hf => htot z (List.mem_cons_of_mem _ hz) hf))
        intro z hz
        have hz2 : z = x ∨ z ∈ ys :=
          List.mem_cons.mp ((stableInsert_perm lt x ys).mem_iff.mp hz)
        rcases hz2 with rfl | hz3
        · exact htot y (List.mem_cons_self _ _) h'
        · exact hy z hz3

theorem stableSort_sorted {α : Type} {lt : α → α → Bool}
    (htrans : ∀ a b c, lt a b = true → lt b c = true → lt a c = true)
    {l : List α}
    (htot : l.Pairwise (fun a b => lt a b = true ∨ lt b a = true)) :
    (stableSort lt l).Pairwise (fun a b => lt a b = true) := by
  suffices h : ∀ (l2 : List α) (acc : List α),
      acc.Pairwise (fun a b => lt a b = true) →
      (∀ x ∈ l2, ∀ y ∈ acc, lt x y = true ∨ lt y x = true) →
      l2.Pairwise (fun a b => lt a b = true ∨ lt b a = true) →
      (l2.foldl (fun acc x => stableInsert lt x acc) acc).Pairwise
        (fun a b => lt a b = true) by
    exact h l [] (by simp) (by simp) htot
  intro l2
  induction l2 with
  | nil => intro acc hacc _ _; exact hacc
  | cons x xs ih =>
      intro acc hacc hcross htot2
      obtain ⟨hx, hxs⟩ := List.pairwise_cons.mp htot2
      rw [List.foldl_cons]
      refine ih (stableInsert lt x acc) ?_ ?_ hxs
      · refine stableInsert_sorted htrans hacc ?_
        intro y hy hf
        rcases hcross x (List.mem_cons_self _ _) y hy with h1 | h1
        · exact absurd h1 (by rw [hf]; simp)
        · exact h1
      · intro z hz y hy
        have hy2 : y = x ∨ y ∈ acc :=
          List.mem_cons.mp ((stableInsert_perm lt x acc).mem_iff.mp hy)
        rcases hy2 with rfl | hy3
        · rcases hx z hz with h1 | h1
          · exact Or.inr h1
          · exact Or.inl h1
        · exact hcross z (List.mem_cons_of_mem _ hz) y hy3

theorem sortedBy_eq_of_perm {α : Type} {lt : α → α → Bool}
    (hasym : ∀ a b, lt a b = true → lt b a = true → False) :
    ∀ {l1 l2 : List α}, l1.Perm l2 →
    l1.Pairwise (fun a b => lt a b = true) →
    l2.Pairwise (fun a b => lt a b = true) → l1 = l2 := by
  intro l1
  induction l1 with
  | nil =>
      intro l2 hp _ _
      exact (List.Perm.eq_nil hp.symm).symm
  | cons a t1 ih =>
      intro l2 hp hs1 hs2
      cases l2 with
      | nil => exact List.Perm.eq_nil hp
      | cons b t2 =>
          by_cases hab : a = b
          · subst hab
            rw [ih (hp.cons_inv) (List.pairwise_cons.mp hs1).2
              (List.pairwise_cons.mp hs2).2]
          · have ha : a ∈ b :: t2 := hp.mem_iff.mp (List.mem_cons_self _ _)
            have hb : b ∈ a :: t1 := hp.symm.mem_iff.mp (List.mem_cons_self _ _)
            have ha2 : a ∈ t2 := by
              rcases List.mem_cons.mp ha with h | h
              · exact absurd h hab
              · exact h
            have hb2 : b ∈ t1 := by
              rcases List.mem_cons.mp hb with h | h
              · exact absurd h.symm hab
              · exact h
            exact absurd ((List.pairwise_cons.mp hs1).1 b hb2)
              (fun h1 => hasym a b h1 ((List.pairwise_cons.mp hs2).1 a ha2))

theorem stableInsert_all_not_lt {α : Type} {lt : α → α → Bool} {x : α} :
    ∀ {l : List α}, (∀ y ∈ l, lt x y = false) →
    stableInsert lt x l = l ++ [x] := by
  intro l
  induction l with
  | nil => intro _; rfl
  | cons y ys ih =>
      intro h
      rw [stableInsert, if_neg (by rw [h y (List.mem_cons_self _ _)]; simp),
        ih (fun z hz => h z (List.mem_cons_of_mem _ hz))]
      rfl

theorem stableInsert_append_of_lt {α : Type} {lt : α → α → Bool} {x : α}
    {u2 : List α} (hU : ∀ u ∈ u2, lt x u = true) :
    ∀ k2 : List α, stableInsert lt x (k2 ++ u2) = stableInsert lt x k2 ++ u2 := by
  intro k2
  induction k2 with
  | nil =>
      cases u2 with
      | nil => rfl
      | cons u us =>
          rw [List.nil_append]
          have hred : stableInsert lt x (u :: us) = x :: u :: us := by
            rw [stableInsert, if_pos (hU u (List.mem_cons_self _ _))]
          rw [hred]
          rfl
  | cons k ks ih =>
      rw [List.cons_append, stableInsert, stableInsert]
      by_cases h : lt x k
      · rw [if_pos h, if_pos h]
        rfl
      · rw [if_neg h, if_neg h, ih]
        rfl

theorem typeLt_trans : ∀ a b c, typeLt a b = true → typeLt b c = true →
    typeLt a c = true := by
  intro a b c
  simp only [typeLt, decide_eq_true_eq]
  omega

theorem typeLt_asym : ∀ a b, typeLt a b = true → typeLt b a = true → False := by
  intro a b
  simp only [typeLt, decide_eq_true_eq]
  omega

theorem TYPE_ORDER_eq_none {x : List Char} (h : x ∉ KNOWN_TYPES) :
    TYPE_ORDER x = none := by
  rw [TYPE_ORDER]
  rw [if_neg (fun he => h (by rw [he]; decide)),
    if_neg (fun he => h (by rw [he]; decide)),
    if_neg (fun he => h (by rw [he]; decide)),
    if_neg (fun he => h (by rw [he]; decide)),
    if_neg (fun he => h (by rw [he]; decide)),
    if_neg (fun he => h (by rw [he]; decide))]

theorem typeOrderVal_unknown {x : List Char} (h : x ∉ KNOWN_TYPES) :
    typeOrderVal x = 999 := by
  rw [typeOrderVal, TYPE_ORDER_eq_none h]
  rfl

theorem typeOrderVal_known_le {x : List Char} (h : x ∈ KNOWN_TYPES) :
    1 ≤ typeOrderVal x ∧ typeOrderVal x ≤ 6 := by
  fin_cases h <;> exact ⟨by decide, by decide⟩

theorem typeOrderVal_inj {a b : List Char} (ha : a ∈ KNOWN_TYPES)
    (hb : b ∈ KNOWN_TYPES) (hne : a ≠ b) :
    typeOrderVal a ≠ typeOrderVal b := by
  fin_cases ha <;> fin_cases hb <;> first
    | exact absurd rfl hne
    | decide

theorem KNOWN_TYPES_sorted :
    KNOWN_TYPES.Pairwise (fun a b => typeLt a b = true) := by
  decide

theorem KNOWN_TYPES_nodup : KNOWN_TYPES.Nodup := by
  decide

theorem stableSort_typeLt_split : ∀ (ks : List (List Char)), ks.Nodup →
    stableSort typeLt ks =
      KNOWN_TYPES.filter (fun t => decide (t ∈ ks)) ++
      ks.filter (fun k => decide (k ∉ KNOWN_TYPES)) := by
  intro ks
  induction ks using List.reverseRecOn with
  | nil => intro _; rfl
  | append_singleton ks x ih =>
      intro hnd
      have hnd1 : ks.Nodup := (List.nodup_append.mp hnd).1
      have hxks : x ∉ ks := by
        intro hx
        have := (List.nodup_append.mp hnd).2.2
        exact this hx (List.mem_singleton_self x)
      have hfold : stableSort typeLt (ks ++ [x]) =
          stableInsert typeLt x (stableSort typeLt ks) := by
        rw [stableSort, stableSort, List.foldl_append]
        rfl
      rw [hfold, ih hnd1]
      by_cases hx : x ∈ KNOWN_TYPES
      · rw [stableInsert_append_of_lt (fun u hu => by
          have hu2 := List.of_mem_filter hu
          have hu3 : u ∉ KNOWN_TYPES := by simpa using hu2
          simp only [typeLt, decide_eq_true_eq, typeOrderVal_unknown hu3]
          have := (typeOrderVal_known_le hx).2
          omega)]
        have hKf : stableInsert typeLt x
            (KNOWN_TYPES.filter (fun t => decide (t ∈ ks))) =
            KNOWN_TYPES.filter (fun t => decide (t ∈ ks ++ [x])) := by
          have hnd_l : (stableInsert typeLt x
              (KNOWN_TYPES.filter (fun t => decide (t ∈ ks)))).Nodup := by
            rw [(stableInsert_perm typeLt x _).nodup_iff]
            refine List.Nodup.cons ?_ (KNOWN_TYPES_nodup.filter _)
            intro hxf
            exact hxks (by simpa using List.of_mem_filter hxf)
          have hnd_r : (KNOWN_TYPES.filter
              (fun t => decide (t ∈ ks ++ [x]))).Nodup :=
            KNOWN_TYPES_nodup.filter _
          have hmemiff : ∀ a, a ∈ stableInsert typeLt x
              (KNOWN_TYPES.filter (fun t => decide (t ∈ ks))) ↔
              a ∈ KNOWN_TYPES.filter (fun t => decide (t ∈ ks ++ [x])) := by
            intro a
            rw [(stableInsert_perm typeLt x _).mem_iff]
            simp only [List.mem_cons, List.mem_filter, List.mem_append,
              List.mem_singleton, List.not_mem_nil, or_false,
              decide_eq_true_eq]
            constructor
            · rintro (rfl | ⟨hk, hm⟩)
              · exact ⟨hx, Or.inr rfl⟩
              · exact ⟨hk, Or.inl hm⟩
            · rintro ⟨hk, hm | rfl⟩
              · exact Or.inr ⟨hk, hm⟩
              · exact Or.inl rfl
          have hperm : (stableInsert typeLt x
              (KNOWN_TYPES.filter (fun t => decide (t ∈ ks)))).Perm
              (KNOWN_TYPES.filter (fun t => decide (t ∈ ks ++ [x]))) := by
            rw [List.perm_ext_iff_of_nodup hnd_l hnd_r]
            exact hmemiff
          refine sortedBy_eq_of_perm typeLt_asym hperm ?_ ?_
          · refine stableInsert_sorted typeLt_trans
              (KNOWN_TYPES_sorted.filter _) ?_
            intro y hy hf
            have hyk : y ∈ KNOWN_TYPES := List.mem_of_mem_filter hy
            have hyks : y ∈ ks := by simpa using List.of_mem_filter hy
            have hne : x ≠ y := fun he => hxks (he ▸ hyks)
            have hinj := typeOrderVal_inj hx hyk hne
            simp only [typeLt, decide_eq_true_eq,
              decide_eq_false_iff_not] at hf ⊢
            omega
          · exact KNOWN_TYPES_sorted.filter _
        rw [hKf]
        have hUf : (ks ++ [x]).filter (fun k => decide (k ∉ KNOWN_TYPES)) =
            ks.filter (fun k => decide (k ∉ KNOWN_TYPES)) := by
          rw [List.filter_append]
          simp [hx]
        rw [hUf]
      · rw [stableInsert_all_not_lt (fun y hy => by
          rcases List.mem_append.mp hy with h | h
          · have hyk : y ∈ KNOWN_TYPES := List.mem_of_mem_filter h
            simp only [typeLt, decide_eq_true_eq, typeOrderVal_unknown hx]
            have := (typeOrderVal_known_le hyk).2
            simp
            omega
          · have hyu : y ∉ KNOWN_TYPES := by simpa using List.of_mem_filter h
            simp only [typeLt, decide_eq_true_eq, typeOrderVal_unknown hx,
              typeOrderVal_unknown hyu]
            simp)]
        have hKf : KNOWN_TYPES.filter (fun t => decide (t ∈ ks ++ [x])) =
            KNOWN_TYPES.filter (fun t => decide (t ∈ ks)) := by
          refine List.filter_congr ?_
          intro t ht
          simp only [List.mem_append, List.mem_singleton, decide_eq_decide]
          constructor
          · rintro (h | rfl)
            · exact h
            · exact absurd ht hx
          · exact Or.inl
        have hUf : (ks ++ [x]).filter (fun k => decide (k ∉ KNOWN_TYPES)) =
            ks.filter (fun k => decide (k ∉ KNOWN_TYPES)) ++ [x] := by
          rw [List.filter_append]
          simp [hx]
        rw [hKf, hUf, List.append_assoc]

theorem pushGroup_keys (t : List Char) (f : Fragment) : ∀ gs,
    (pushGroup gs t f).map (fun g => g.1) =
      if t ∈ gs.map (fun g => g.1) then gs.map (fun g => g.1)
      else gs.map (fun g => g.1) ++ [t] := by
  intro gs
  induction gs with
  | nil => simp [pushGroup]
  | cons g rest ih =>
      obtain ⟨k, fs⟩ := g
      rw [pushGroup]
      by_cases hk : k = t
      · rw [if_pos hk]
        simp [hk]
      · rw [if_neg hk]
        simp only [List.map_cons, ih, List.mem_cons]
        by_cases hmem : t ∈ rest.map (fun g => g.1)
        · rw [if_pos hmem, if_pos (Or.inr hmem)]
        · rw [if_neg hmem, if_neg (by
            rintro (h | h)
            · exact hk h.symm
            · exact hmem h)]
          rfl

theorem lookupGroup_cons (k : List Char) (fs : List Fragment)
    (rest : List (List Char × List Fragment)) (t : List Char) :
    lookupGroup ((k, fs) :: rest) t =
      if k = t then fs else lookupGroup rest t := by
  by_cases hk : k = t
  · rw [if_pos hk]
    simp [lookupGroup, List.find?, hk]
  · rw [if_neg hk]
    simp only [lookupGroup, List.find?]
    simp [hk]

theorem lookupGroup_pushGroup_same (t : List Char) (f : Fragment) : ∀ gs,
    lookupGroup (pushGroup gs t f) t = lookupGroup gs t ++ [f] := by
  intro gs
  induction gs with
  | nil => simp [pushGroup, lookupGroup, List.find?]
  | cons g rest ih =>
      obtain ⟨k, fs⟩ := g
      rw [pushGroup]
      by_cases hk : k = t
      · rw [if_pos hk, lookupGroup_cons, lookupGroup_cons, if_pos hk, if_pos hk]
      · rw [if_neg hk, lookupGroup_cons, lookupGroup_cons, if_neg hk, if_neg hk]
        exact ih

theorem lookupGroup_pushGroup_other {t t2 : List Char} (hne : t2 ≠ t)
    (f : Fragment) : ∀ gs,
    lookupGroup (pushGroup gs t f) t2 = lookupGroup gs t2 := by
  intro gs
  induction gs with
  | nil =>
      have h2 : ¬(t = t2) := fun h => hne h.symm
      simp [pushGroup, lookupGroup, List.find?, h2]
  | cons g rest ih =>
      obtain ⟨k, fs⟩ := g
      rw [pushGroup]
      by_cases hk : k = t
      · have hk2 : ¬(k = t2) := fun h => hne (h ▸ hk)
        rw [if_pos hk, lookupGroup_cons, lookupGroup_cons, if_neg hk2,
          if_neg hk2]
      · rw [if_neg hk, lookupGroup_cons, lookupGroup_cons]
        by_cases hk2 : k = t2
        · rw [if_pos hk2, if_pos hk2]
        · rw [if_neg hk2, if_neg hk2]
          exact ih

theorem groupFold_lookup : ∀ (l : List Fragment)
    (gs : List (List Char × List Fragment)) (t : List Char),
    lookupGroup (l.foldl (fun gs f => pushGroup gs (fragType f) f) gs) t =
      lookupGroup gs t ++ l.filter (fun f => decide (fragType f = t)) := by
  intro l
  induction l with
  | nil => intro gs t; simp
  | cons f fs ih =>
      intro gs t
      rw [List.foldl_cons, ih, List.filter_cons]
      by_cases h : fragType f = t
      · rw [← h, lookupGroup_pushGroup_same]
        simp [h, List.append_assoc]
      · rw [lookupGroup_pushGroup_other (fun he => h he.symm)]
        simp [h]

theorem groupFold_keys_mem : ∀ (l : List Fragment)
    (gs : List (List Char × List Fragment)) (t : List Char),
    (t ∈ (l.foldl (fun gs f => pushGroup gs (fragType f) f) gs).map
      (fun g => g.1)) ↔
    t ∈ gs.map (fun g => g.1) ∨ t ∈ l.map fragType := by
  intro l
  induction l with
  | nil => intro gs t; simp
  | cons f fs ih =>
      intro gs t
      rw [List.foldl_cons, ih, pushGroup_keys]
      by_cases h : fragType f ∈ gs.map (fun g => g.1)
      · rw [if_pos h]
        simp only [List.map_cons, List.mem_cons]
        constructor
        · rintro (h2 | h2)
          · exact Or.inl h2
          · exact Or.inr (Or.inr h2)
        · rintro (h2 | h2 | h2)
          · exact Or.inl h2
          · exact Or.inl (h2 ▸ h)
          · exact Or.inr h2
      · rw [if_neg h]
        simp only [List.mem_append, List.mem_singleton, List.map_cons,
          List.mem_cons]
        tauto

theorem groupFold_keys_nodup : ∀ (l : List Fragment)
    (gs : List (List Char × List Fragment)),
    (gs.map (fun g => g.1)).Nodup →
    ((l.foldl (fun gs f => pushGroup gs (fragType f) f) gs).map
      (fun g => g.1)).Nodup := by
  intro l
  induction l with
  | nil => intro gs h; exact h
  | cons f fs ih =>
      intro gs h
      rw [List.foldl_cons]
      refine ih _ ?_
      rw [pushGroup_keys]
      by_cases hmem : fragType f ∈ gs.map (fun g => g.1)
      · rw [if_pos hmem]; exact h
      · rw [if_neg hmem]
        exact List.Nodup.append h (by simp)
          (by simpa [List.disjoint_singleton] using hmem)

theorem lookupGroup_map_sort : ∀ (gs : List (List Char × List Fragment))
    (t : List Char),
    lookupGroup (gs.map (fun g => (g.1, stableSort issueLt g.2))) t =
      stableSort issueLt (lookupGroup gs t) := by
  intro gs
  induction gs with
  | nil => intro t; rfl
  | cons g rest ih =>
      intro t
      obtain ⟨k, fs⟩ := g
      simp only [List.map_cons]
      rw [lookupGroup_cons, lookupGroup_cons]
      by_cases hk : k = t
      · rw [if_pos hk, if_pos hk]
      · rw [if_neg hk, if_neg hk]
        exact ih t

theorem keys_groupFragmentsByType (l : List Fragment) :
    (groupFragmentsByType l).map (fun g => g.1) =
      (l.foldl (fun gs f => pushGroup gs (fragType f) f) []).map
        (fun g => g.1) := by
  rw [groupFragmentsByType, List.map_map]
  rfl

theorem lookupGroup_groupFragmentsByType (l : List Fragment) (t : List Char) :
    lookupGroup (groupFragmentsByType l) t =
      stableSort issueLt (l.filter (fun f => decide (fragType f = t))) := by
  rw [groupFragmentsByType, lookupGroup_map_sort, groupFold_lookup]
  rfl

theorem mem_keys_groupFragmentsByType (l : List Fragment) (t : List Char) :
    t ∈ (groupFragmentsByType l).map (fun g => g.1) ↔ t ∈ l.map fragType := by
  rw [keys_groupFragmentsByType, groupFold_keys_mem]
  simp

theorem nodup_keys_groupFragmentsByType (l : List Fragment) :
    ((groupFragmentsByType l).map (fun g => g.1)).Nodup := by
  rw [keys_groupFragmentsByType]
  exact groupFold_keys_nodup l [] (by simp)

theorem objectKeys_mem (gs : List (List Char × List Fragment)) (t : List Char) :
    t ∈ objectKeys gs ↔ t ∈ gs.map (fun g => g.1) := by
  rw [objectKeys]
  simp only [List.mem_append, mem_stableSort, List.mem_filter]
  by_cases h : isArrayIndexKey t
  · simp [h]
  · simp [h]

theorem objectKeys_nodup {gs : List (List Char × List Fragment)}
    (h : (gs.map (fun g => g.1)).Nodup) : (objectKeys gs).Nodup := by
  rw [objectKeys]
  refine List.Nodup.append ?_ (h.filter _) ?_
  · rw [(stableSort_perm _ _).nodup_iff]
    exact h.filter _
  · intro a ha hb
    have ha2 := List.of_mem_filter (mem_stableSort _ |>.mp ha)
    have hb2 := List.of_mem_filter hb
    rw [ha2] at hb2
    exact absurd hb2 (by decide)

theorem issueLt_trans : ∀ a b c : Fragment, issueLt a b = true →
    issueLt b c = true → issueLt a c = true := by
  intro a b c h1 h2
  cases ha : a.issue <;> cases hb : b.issue <;> cases hc : c.issue <;>
    simp_all [issueLt] <;> omega

theorem issueLt_asym : ∀ a b : Fragment, issueLt a b = true →
    issueLt b a = true → False := by
  intro a b h1 h2
  cases ha : a.issue <;> cases hb : b.issue <;> simp_all [issueLt] <;> omega

theorem issueLt_total_of {l : List Fragment}
    (hiss : ∀ f ∈ l, f.issue.isSome = true)
    (hdist : l.Pairwise (fun a b => a.issue ≠ b.issue)) :
    l.Pairwise (fun a b => issueLt a b = true ∨ issueLt b a = true) := by
  refine List.Pairwise.imp_of_mem ?_ hdist
  intro a b ha hb hne
  obtain ⟨x, hx⟩ := Option.isSome_iff_exists.mp (hiss a ha)
  obtain ⟨y, hy⟩ := Option.isSome_iff_exists.mp (hiss b hb)
  have hxy : x ≠ y := fun he => hne (by rw [hx, hy, he])
  simp only [issueLt, hx, hy, decide_eq_true_eq]
  omega

/-- C4 counterexample: two fragments with the unknown types zebra and alpha,
enumerated in that order, render with the Zebra group before the Alpha
group — the stable sort leaves the equal 999 fallback keys in insertion
order, not in alphabetical order as claimed. -/
theorem unknown_types_keep_insertion_order :
    generateChangelogSection (groupFragmentsByType [c4Zebra, c4Alpha]) =
      ("### Zebra\n\n- **Z** (#1)\n  - z\n\n### Alpha\n\n- **A** (#2)\n  - a\n".toList) ∧
    stableSort typeLt (objectKeys (groupFragmentsByType [c4Zebra, c4Alpha])) =
      [("zebra".toList), ("alpha".toList)] := by
  exact ⟨by decide, by decide⟩

/-- C4 amended: the rendered group keys are exactly the known taxonomy
types present, in the fixed priority order added, changed, deprecated,
removed, fixed, security, followed by the unknown types in Object.keys
enumeration order (not alphabetical order); within every group the
fragments are strictly ascending by issue number whenever all issues are
numbers and pairwise distinct. -/
theorem aggregation_group_and_issue_order (l : List Fragment) (t : List Char)
    (hiss : ∀ f ∈ l, f.issue.isSome = true)
    (hdist : l.Pairwise (fun a b => a.issue ≠ b.issue)) :
    stableSort typeLt (objectKeys (groupFragmentsByType l)) =
      KNOWN_TYPES.filter
        (fun u => decide (u ∈ objectKeys (groupFragmentsByType l))) ++
      (objectKeys (groupFragmentsByType l)).filter
        (fun k => decide (k ∉ KNOWN_TYPES)) ∧
    (lookupGroup (groupFragmentsByType l) t).Pairwise
      (fun a b => issueLt a b = true) := by
  constructor
  · exact stableSort_typeLt_split _
      (objectKeys_nodup (nodup_keys_groupFragmentsByType l))
  · rw [lookupGroup_groupFragmentsByType]
    refine stableSort_sorted issueLt_trans ?_
    exact issueLt_total_of (fun f hf => hiss f (List.mem_of_mem_filter hf))
      (hdist.filter _)

/-- Witness for the aggregation-order theorem on a mixed fragment list. -/
theorem aggregation_group_and_issue_order_w :
    stableSort typeLt (objectKeys (groupFragmentsByType [c5F1, c5F2])) =
      KNOWN_TYPES.filter
        (fun u => decide (u ∈ objectKeys (groupFragmentsByType [c5F1, c5F2]))) ++
      (objectKeys (groupFragmentsByType [c5F1, c5F2])).filter
        (fun k => decide (k ∉ KNOWN_TYPES)) ∧
    (lookupGroup (groupFragmentsByType [c5F1, c5F2]) ("fixed".toList)).Pairwise
      (fun a b => issueLt a b = true) :=
  aggregation_group_and_issue_order [c5F1, c5F2] ("fixed".toList)
    (by decide) (by decide)

theorem render_canonical (l : List Fragment)
    (hknown : ∀ f ∈ l, fragType f ∈ KNOWN_TYPES) :
    generateChangelogSection (groupFragmentsByType l) =
      joinNl ((KNOWN_TYPES.filter
          (fun t => decide (t ∈ l.map fragType))).flatMap (fun t =>
        (("### ".toList) ++
            (match TYPE_HEADERS t with
             | some h => h
             | none => titleCase t) ++ ("\n".toList)) ::
          (stableSort issueLt (l.filter
            (fun f => decide (fragType f = t)))).flatMap renderEntry)) := by
  rw [generateChangelogSection]
  rw [stableSort_typeLt_split _
    (objectKeys_nodup (nodup_keys_groupFragmentsByType l))]
  have hunk : (objectKeys (groupFragmentsByType l)).filter
      (fun k => decide (k ∉ KNOWN_TYPES)) = [] := by
    rw [List.filter_eq_nil]
    intro a ha
    have hmem : a ∈ l.map fragType :=
      (mem_keys_groupFragmentsByType l a).mp ((objectKeys_mem _ a).mp ha)
    obtain ⟨f, hf, rfl⟩ := List.mem_map.mp hmem
    simp [hknown f hf]
  rw [hunk, List.append_nil]
  have hflt : KNOWN_TYPES.filter
      (fun t => decide (t ∈ objectKeys (groupFragmentsByType l))) =
      KNOWN_TYPES.filter (fun t => decide (t ∈ l.map fragType)) := by
    refine List.filter_congr ?_
    intro t _
    simp only [decide_eq_decide]
    rw [objectKeys_mem, mem_keys_groupFragmentsByType]
  rw [hflt]
  congr 1
  congr 1
  funext t
  rw [lookupGroup_groupFragmentsByType]

/-- C5 counterexample: two sequences holding the same fragment set (the
unknown types omega and beta) in opposite enumeration orders render
different section texts, because the equal-fallback-key groups keep their
insertion order. -/
theorem rendering_depends_on_enumeration_order :
    ([c5Omega, c5Beta]).Perm ([c5Beta, c5Omega]) ∧
    generateChangelogSection (groupFragmentsByType [c5Omega, c5Beta]) ≠
      generateChangelogSection (groupFragmentsByType [c5Beta, c5Omega]) := by
  exact ⟨by decide, by decide⟩

/-- C5 amended: for fragment sequences that are permutations of each other
in which every fragment's (defaulted) type is a taxonomy type and all issue
numbers are numeric and pairwise distinct, the rendered section text is
byte-identical regardless of enumeration order; rendering is a pure
function, so aggregating the same set twice trivially yields identical
output. -/
theorem rendering_perm_invariant (l1 l2 : List Fragment)
    (hperm : l1.Perm l2)
    (hknown : ∀ f ∈ l1, fragType f ∈ KNOWN_TYPES)
    (hiss : ∀ f ∈ l1, f.issue.isSome = true)
    (hdist : l1.Pairwise (fun a b => a.issue ≠ b.issue)) :
    generateChangelogSection (groupFragmentsByType l1) =
      generateChangelogSection (groupFragmentsByType l2) := by
  have hknown2 : ∀ f ∈ l2, fragType f ∈ KNOWN_TYPES :=
    fun f hf => hknown f (hperm.mem_iff.mpr hf)
  have hiss2 : ∀ f ∈ l2, f.issue.isSome = true :=
    fun f hf => hiss f (hperm.mem_iff.mpr hf)
  have hdist2 : l2.Pairwise (fun a b => a.issue ≠ b.issue) :=
    (hperm.pairwise_iff (by intro x y h; exact h.symm)).mp hdist
  rw [render_canonical l1 hknown, render_canonical l2 hknown2]
  have hK : KNOWN_TYPES.filter (fun t => decide (t ∈ l1.map fragType)) =
      KNOWN_TYPES.filter (fun t => decide (t ∈ l2.map fragType)) := by
    refine List.filter_congr ?_
    intro t _
    simp only [decide_eq_decide]
    exact (hperm.map fragType).mem_iff
  rw [hK]
  congr 1
  congr 1
  funext t
  have hsorteq : stableSort issueLt
      (l1.filter (fun f => decide (fragType f = t))) =
      stableSort issueLt (l2.filter (fun f => decide (fragType f = t))) := by
    refine sortedBy_eq_of_perm issueLt_asym ?_ ?_ ?_
    · exact (stableSort_perm _ _).trans
        ((hperm.filter _).trans (stableSort_perm _ _).symm)
    · exact stableSort_sorted issueLt_trans
        (issueLt_total_of (fun f hf => hiss f (List.mem_of_mem_filter hf))
          (hdist.filter _))
    · exact stableSort_sorted issueLt_trans
        (issueLt_total_of (fun f hf => hiss2 f (List.mem_of_mem_filter hf))
          (hdist2.filter _))
  rw [hsorteq]

/-- Witness for the determinism theorem: the specification's example
fragments in both enumeration orders. -/
theorem rendering_perm_invariant_w :
    generateChangelogSection (groupFragmentsByType [c5F1, c5F2]) =
      generateChangelogSection (groupFragmentsByType [c5F2, c5F1]) :=
  rendering_perm_invariant [c5F1, c5F2] [c5F2, c5F1]
    (by decide) (by decide) (by decide) (by decide)

theorem bracket_of_unrLink {l : List Char}
    (h : ("[Unreleased]:".toList).isPrefixOf l = true) :
    ("[".toList).isPrefixOf l = true := by
  rw [List.isPrefixOf_iff_prefix] at h ⊢
  exact List.IsPrefix.trans (by decide) h

theorem sharp_of_unrHeader {l : List Char}
    (h : ("## [Unreleased]".toList).isPrefixOf l = true) :
    ("## [".toList).isPrefixOf l = true := by
  rw [List.isPrefixOf_iff_prefix] at h ⊢
  exact List.IsPrefix.trans (by decide) h

theorem awkLine_plain (v d p r : List Char) (st : AwkSt) (line : List Char)
    (h1 : ("## [Unreleased]".toList).isPrefixOf line = false)
    (h2 : st.inUnr = false)
    (h3 : ("[".toList).isPrefixOf line = false) :
    awkLine v d p r st line = { st with out := st.out ++ line ++ ['\n'] } := by
  have h4 : ("[Unreleased]:".toList).isPrefixOf line = false := by
    cases hc : ("[Unreleased]:".toList).isPrefixOf line with
    | true => rw [bracket_of_unrLink hc] at h3; exact absurd h3 (by simp)
    | false => rfl
  rw [awkLine]
  simp only [h1, h2, h3, h4, Bool.false_eq_true, if_false, Bool.and_false,
    Bool.false_and, awkPrint]

theorem awkLine_vlaDone (v d p r : List Char) (st : AwkSt) (line : List Char)
    (h1 : ("## [Unreleased]".toList).isPrefixOf line = false)
    (h2 : st.inUnr = false)
    (h4 : ("[Unreleased]:".toList).isPrefixOf line = false)
    (hv : st.vla = true) :
    awkLine v d p r st line = { st with out := st.out ++ line ++ ['\n'] } := by
  rw [awkLine]
  simp only [h1, h2, h4, hv, Bool.false_eq_true, if_false, Bool.and_false,
    Bool.false_and, Bool.not_true, awkPrint]

theorem awkLine_header1 (v d p r : List Char) (st : AwkSt) :
    awkLine v d p r st ("## [Unreleased]".toList) =
      { st with out := st.out ++ ("## [Unreleased]\n\n".toList),
                inUnr := true } := by
  rw [awkLine]
  simp only [show (("## [Unreleased]".toList).isPrefixOf
      ("## [Unreleased]".toList)) = true from by decide, if_true, awkPrint]
  simp [List.append_assoc]

theorem awkLine_collect (v d p r : List Char) (st : AwkSt) (line : List Char)
    (h2 : st.inUnr = true)
    (hnp : ("## [".toList).isPrefixOf line = false) :
    awkLine v d p r st line =
      { st with content := st.content ++ line ++ ['\n'] } := by
  have h1 : ("## [Unreleased]".toList).isPrefixOf line = false := by
    cases hc : ("## [Unreleased]".toList).isPrefixOf line with
    | true => rw [sharp_of_unrHeader hc] at hnp; exact absurd hnp (by simp)
    | false => rfl
  rw [awkLine]
  simp only [h1, h2, hnp, Bool.false_eq_true, if_false, Bool.false_and,
    if_true]

theorem awkLine_nextHeader (v d p r : List Char) (st : AwkSt) (hline : List Char)
    (hin : st.inUnr = true)
    (hH1 : ("## [".toList).isPrefixOf hline = true)
    (hH2 : ("## [Unreleased]".toList).isPrefixOf hline = false) :
    awkLine v d p r st hline =
      { st with
          out := st.out ++ (("## [".toList) ++ v ++ ("] - ".toList) ++ d) ++
            '\n' :: '\n' :: (st.content ++ '\n' :: (hline ++ ['\n']))
          inUnr := false } := by
  obtain ⟨tl, htl⟩ := List.isPrefixOf_iff_prefix.mp hH1
  have hsharp : ∃ w, hline = '#' :: w := by
    rw [← htl]
    exact ⟨("# [".toList) ++ tl, rfl⟩
  obtain ⟨w, hw⟩ := hsharp
  have h4 : ("[Unreleased]:".toList).isPrefixOf hline = false := by
    rw [hw]; rfl
  have h5 : ("[".toList).isPrefixOf hline = false := by
    rw [hw]; rfl
  rw [awkLine]
  simp only [hH2, hin, hH1, h4, h5, Bool.false_eq_true, if_false,
    Bool.and_self, Bool.and_true, Bool.true_and, if_true, Bool.false_and,
    awkPrint]
  simp [List.append_assoc]

theorem awkLine_unrLink (v d p r : List Char) (st : AwkSt) (u : List Char)
    (hin : st.inUnr = false)
    (hU : ("[Unreleased]:".toList).isPrefixOf u = true) :
    awkLine v d p r st u =
      { st with out := st.out ++ ("[Unreleased]: ".toList) ++ r ++
          ("/compare/v".toList) ++ v ++ ("...HEAD".toList) ++ ['\n'] } := by
  obtain ⟨tl, htl⟩ := List.isPrefixOf_iff_prefix.mp hU
  have hbr : ∃ w, u = '[' :: w := by
    rw [← htl]
    exact ⟨("Unreleased]:".toList) ++ tl, rfl⟩
  obtain ⟨w, hw⟩ := hbr
  have h1 : ("## [Unreleased]".toList).isPrefixOf u = false := by
    rw [hw]; rfl
  have h2 : ("## [".toList).isPrefixOf u = false := by
    rw [hw]; rfl
  rw [awkLine]
  simp only [h1, h2, hin, hU, Bool.false_eq_true, if_false, Bool.false_and,
    Bool.and_false, if_true, awkPrint]
  simp [List.append_assoc]

theorem awkLine_firstLink (v d p r : List Char) (st : AwkSt) (r0 : List Char)
    (hin : st.inUnr = false) (hvla : st.vla = false)
    (h0 : ("[".toList).isPrefixOf r0 = true)
    (h4 : ("[Unreleased]:".toList).isPrefixOf r0 = false) :
    awkLine v d p r st r0 =
      { st with
          out := st.out ++ (("[".toList) ++ v ++ ("]: ".toList) ++ r ++
            ("/compare/v".toList) ++ p ++ ("...v".toList) ++ v) ++
            '\n' :: (r0 ++ ['\n'])
          vla := true } := by
  obtain ⟨tl, htl⟩ := List.isPrefixOf_iff_prefix.mp h0
  have hbr : ∃ w, r0 = '[' :: w := by
    rw [← htl]
    exact ⟨tl, rfl⟩
  obtain ⟨w, hw⟩ := hbr
  have h1 : ("## [Unreleased]".toList).isPrefixOf r0 = false := by
    rw [hw]; rfl
  have h2 : ("## [".toList).isPrefixOf r0 = false := by
    rw [hw]; rfl
  rw [awkLine]
  simp only [h1, h2, hin, hvla, h0, h4, Bool.false_eq_true, if_false,
    Bool.false_and, Bool.and_false, Bool.not_false, Bool.and_true, if_true,
    awkPrint]
  simp [List.append_assoc]

theorem awkFold_noBracket (v d p r : List Char) :
    ∀ (ls : List (List Char)) (st : AwkSt), st.inUnr = false →
    (∀ x ∈ ls, (("## [Unreleased]".toList).isPrefixOf x = false) ∧
      (("[".toList).isPrefixOf x = false)) →
    ls.foldl (awkLine v d p r) st = { st with out := st.out ++ linesText ls } := by
  intro ls
  induction ls with
  | nil => intro st _ _; simp [linesText]
  | cons x xs ih =>
      intro st hin hall
      rw [List.foldl_cons,
        awkLine_plain v d p r st x (hall x (List.mem_cons_self _ _)).1 hin
          (hall x (List.mem_cons_self _ _)).2,
        ih { st with out := st.out ++ x ++ ['\n'] } hin
          (fun y hy => hall y (List.mem_cons_of_mem _ hy))]
      simp [linesText, List.append_assoc]

theorem awkFold_vlaDone (v d p r : List Char) :
    ∀ (ls : List (List Char)) (st : AwkSt), st.inUnr = false → st.vla = true →
    (∀ x ∈ ls, (("## [Unreleased]".toList).isPrefixOf x = false) ∧
      (("[Unreleased]:".toList).isPrefixOf x = false)) →
    ls.foldl (awkLine v d p r) st = { st with out := st.out ++ linesText ls } := by
  intro ls
  induction ls with
  | nil => intro st _ _ _; simp [linesText]
  | cons x xs ih =>
      intro st hin hvla hall
      rw [List.foldl_cons,
        awkLine_vlaDone v d p r st x (hall x (List.mem_cons_self _ _)).1 hin
          (hall x (List.mem_cons_self _ _)).2 hvla,
        ih { st with out := st.out ++ x ++ ['\n'] } hin hvla
          (fun y hy => hall y (List.mem_cons_of_mem _ hy))]
      simp [linesText, List.append_assoc]

theorem awkFold_collect (v d p r : List Char) :
    ∀ (ls : List (List Char)) (st : AwkSt), st.inUnr = true →
    (∀ x ∈ ls, ("## [".toList).isPrefixOf x = false) →
    ls.foldl (awkLine v d p r) st =
      { st with content := st.content ++ linesText ls } := by
  intro ls
  induction ls with
  | nil => intro st _ _; simp [linesText]
  | cons x xs ih =>
      intro st hin hall
      rw [List.foldl_cons,
        awkLine_collect v d p r st x hin (hall x (List.mem_cons_self _ _)),
        ih { st with content := st.content ++ x ++ ['\n'] } hin
          (fun y hy => hall y (List.mem_cons_of_mem _ hy))]
      simp [linesText, List.append_assoc]

/-- C9: a successful release transition rewrites the changelog document so
that the pending-marker header is preserved with its section now empty, a
new header for the version and date appears immediately below it followed
by exactly the content previously under the pending marker, the
pending-marker comparison link now compares the new version tag against
HEAD, and a new link comparing the new version against the previous
current version is inserted before the existing version links. Structured
documents: a prefix with no pending marker and no bracketed line, the
pending marker, its content, the next version header, middle lines with no
marker and no bracketed line, the pending comparison link, the first
version link, and trailing lines. -/
theorem release_rewrite (v d p r : List Char)
    (pre body mid rs : List (List Char)) (H U r0 : List Char)
    (hpre : ∀ x ∈ pre, (("## [Unreleased]".toList).isPrefixOf x = false) ∧
      (("[".toList).isPrefixOf x = false))
    (hbody : ∀ x ∈ body, ("## [".toList).isPrefixOf x = false)
    (hH1 : ("## [".toList).isPrefixOf H = true)
    (hH2 : ("## [Unreleased]".toList).isPrefixOf H = false)
    (hmid : ∀ x ∈ mid, (("## [Unreleased]".toList).isPrefixOf x = false) ∧
      (("[".toList).isPrefixOf x = false))
    (hU : ("[Unreleased]:".toList).isPrefixOf U = true)
    (hr0a : ("[".toList).isPrefixOf r0 = true)
    (hr0b : ("[Unreleased]:".toList).isPrefixOf r0 = false)
    (hrs : ∀ x ∈ rs, (("## [Unreleased]".toList).isPrefixOf x = false) ∧
      (("[Unreleased]:".toList).isPrefixOf x = false)) :
    awkRewrite v d p r
      (pre ++ ("## [Unreleased]".toList) ::
        (body ++ H :: (mid ++ U :: r0 :: rs))) =
      linesText pre ++ ("## [Unreleased]\n\n".toList) ++
        (("## [".toList) ++ v ++ ("] - ".toList) ++ d) ++
        '\n' :: '\n' :: (linesText body ++ '\n' :: (H ++ ['\n'])) ++
        linesText mid ++
        ("[Unreleased]: ".toList) ++ r ++ ("/compare/v".toList) ++ v ++
        ("...HEAD".toList) ++ ['\n'] ++
        (("[".toList) ++ v ++ ("]: ".toList) ++ r ++ ("/compare/v".toList) ++
          p ++ ("...v".toList) ++ v) ++ '\n' :: (r0 ++ ['\n']) ++
        linesText rs := by
  have step_pre : ∀ o c : List Char,
      List.foldl (awkLine v d p r) ⟨o, false, false, c⟩ pre =
        ⟨o ++ linesText pre, false, false, c⟩ :=
    fun o c =>
      (awkFold_noBracket v d p r pre ⟨o, false, false, c⟩ rfl hpre).trans rfl
  have step_hdr : ∀ o c : List Char,
      awkLine v d p r ⟨o, false, false, c⟩ ("## [Unreleased]".toList) =
        ⟨o ++ ("## [Unreleased]\n\n".toList), true, false, c⟩ :=
    fun o c => (awkLine_header1 v d p r ⟨o, false, false, c⟩).trans rfl
  have step_body : ∀ o c : List Char,
      List.foldl (awkLine v d p r) ⟨o, true, false, c⟩ body =
        ⟨o, true, false, c ++ linesText body⟩ :=
    fun o c =>
      (awkFold_collect v d p r body ⟨o, true, false, c⟩ rfl hbody).trans rfl
  have step_H : ∀ o c : List Char,
      awkLine v d p r ⟨o, true, false, c⟩ H =
        ⟨o ++ (("## [".toList) ++ v ++ ("] - ".toList) ++ d) ++
          '\n' :: '\n' :: (c ++ '\n' :: (H ++ ['\n'])), false, false, c⟩ :=
    fun o c =>
      (awkLine_nextHeader v d p r ⟨o, true, false, c⟩ H rfl hH1 hH2).trans rfl
  have step_mid : ∀ o c : List Char,
      List.foldl (awkLine v d p r) ⟨o, false, false, c⟩ mid =
        ⟨o ++ linesText mid, false, false, c⟩ :=
    fun o c =>
      (awkFold_noBracket v d p r mid ⟨o, false, false, c⟩ rfl hmid).trans rfl
  have step_U : ∀ o c : List Char,
      awkLine v d p r ⟨o, false, false, c⟩ U =
        ⟨o ++ ("[Unreleased]: ".toList) ++ r ++ ("/compare/v".toList) ++ v ++
          ("...HEAD".toList) ++ ['\n'], false, false, c⟩ :=
    fun o c =>
      (awkLine_unrLink v d p r ⟨o, false, false, c⟩ U rfl hU).trans rfl
  have step_r0 : ∀ o c : List Char,
      awkLine v d p r ⟨o, false, false, c⟩ r0 =
        ⟨o ++ (("[".toList) ++ v ++ ("]: ".toList) ++ r ++
          ("/compare/v".toList) ++ p ++ ("...v".toList) ++ v) ++
          '\n' :: (r0 ++ ['\n']), false, true, c⟩ :=
    fun o c =>
      (awkLine_firstLink v d p r ⟨o, false, false, c⟩ r0 rfl rfl hr0a
        hr0b).trans rfl
  have step_rs : ∀ o c : List Char,
      List.foldl (awkLine v d p r) ⟨o, false, true, c⟩ rs =
        ⟨o ++ linesText rs, false, true, c⟩ :=
    fun o c =>
      (awkFold_vlaDone v d p r rs ⟨o, false, true, c⟩ rfl rfl hrs).trans rfl
  rw [awkRewrite, List.foldl_append, step_pre, List.foldl_cons, step_hdr,
    List.foldl_append, step_body, List.foldl_cons, step_H,
    List.foldl_append, step_mid, List.foldl_cons, step_U,
    List.foldl_cons, step_r0, step_rs]
  simp [List.append_assoc]

set_option maxRecDepth 10000 in
theorem release_rewrite_w :
    awkRewrite ("0.2.0".toList) ("2025-01-02".toList) ("0.1.0".toList)
      ("URL".toList)
      ([("# Changelog".toList), ([] : List Char)] ++
        ("## [Unreleased]".toList) ::
        ([([] : List Char), ("### Added".toList), ("- **X** (#1)".toList),
            ([] : List Char)] ++
          ("## [0.1.0] - 2024-01-01".toList) ::
            ([([] : List Char), ("### Fixed".toList), ("- old".toList),
                ([] : List Char)] ++
              ("[Unreleased]: URL/compare/v0.1.0...HEAD".toList) ::
                ("[0.1.0]: URL/releases/tag/v0.1.0".toList) :: []))) =
      ("# Changelog\n\n## [Unreleased]\n\n## [0.2.0] - 2025-01-02\n\n\n### Added\n- **X** (#1)\n\n\n## [0.1.0] - 2024-01-01\n\n### Fixed\n- old\n\n[Unreleased]: URL/compare/v0.2.0...HEAD\n[0.2.0]: URL/compare/v0.1.0...v0.2.0\n[0.1.0]: URL/releases/tag/v0.1.0\n".toList) :=
  (release_rewrite ("0.2.0".toList) ("2025-01-02".toList) ("0.1.0".toList)
    ("URL".toList)
    [("# Changelog".toList), ([] : List Char)]
    [([] : List Char), ("### Added".toList), ("- **X** (#1)".toList),
      ([] : List Char)]
    [([] : List Char), ("### Fixed".toList), ("- old".toList),
      ([] : List Char)]
    []
    ("## [0.1.0] - 2024-01-01".toList)
    ("[Unreleased]: URL/compare/v0.1.0...HEAD".toList)
    ("[0.1.0]: URL/releases/tag/v0.1.0".toList)
    (by decide) (by decide) (by decide) (by decide) (by decide) (by decide)
    (by decide) (by decide) (by decide)).trans (by decide)

end Changelog
